import Mathlib

/-!
Verification development for `crates/editor/src/display_map/crease_map.rs`.

The crease registry tracks collapsible regions (creases) anchored in a text
buffer.  External collaborators that live outside this file (the
`multi_buffer` anchor subsystem and the `sum_tree` persistent tree) are
modelled from the spec: a fixed buffer snapshot is represented by baking each
anchor's resolved point and validity into the anchor value, and the ordered
sum tree is represented by its left-to-right list of entries, a cursor being
the remaining suffix of that list.
-/

/-- Three-way comparison on naturals, modelling `Ord` on `usize` / `u32`. -/
def natCmp (a b : Nat) : Ordering :=
  if a < b then .lt else if b < a then .gt else .eq

/-- Lawfulness of a three-way comparator: swap symmetry, transitivity of the
strict part, and substitutivity of the equal part. -/
structure LawfulCmp {α : Type _} (c : α → α → Ordering) : Prop where
  symm : ∀ a b, c a b = (c b a).swap
  lt_trans : ∀ a b d, c a b = Ordering.lt → c b d = Ordering.lt → c a d = Ordering.lt
  eq_left : ∀ a b d, c a b = Ordering.eq → c a d = c b d

/-- Modelled from the spec: `text::Point`, a resolved row/column coordinate
(collaborator interface, spec section 6). -/
structure Point where
  row : Nat
  column : Nat
deriving DecidableEq, Repr

/-- Embeds `sum_tree::Bias` (only `Left` is used by this file). -/
inductive Bias where
  | Left
  | Right
deriving DecidableEq, Repr

/-- Modelled from the spec: an external `multi_buffer::Anchor` under one fixed
buffer snapshot.  The snapshot-relative collaborator operations (spec section
6) are represented by baking the anchor's resolved point and validity into the
value; anchors are ordered by resolved point, then bias. -/
structure Anchor where
  point : Point
  bias : Bias
  valid : Bool
deriving DecidableEq, Repr

/-- Modelled from the spec: comparison of biases at the same position
(an anchor with left bias sorts before one with right bias). -/
def Bias.cmp : Bias → Bias → Ordering
  | .Left, .Left => .eq
  | .Left, .Right => .lt
  | .Right, .Left => .gt
  | .Right, .Right => .eq

/-- Modelled from the spec: lexicographic order on resolved coordinates. -/
def Point.cmp (a b : Point) : Ordering :=
  (natCmp a.row b.row).then (natCmp a.column b.column)

/-- Modelled from the spec: the external total order
`compare(Anchor, Anchor, buffer_snapshot)` under the fixed snapshot. -/
def Anchor.cmp (a b : Anchor) : Ordering :=
  (Point.cmp a.point b.point).then (Bias.cmp a.bias b.bias)

/-- Modelled from the spec: `MultiBufferSnapshot::anchor_before(point)`. -/
def anchor_before (p : Point) : Anchor :=
  { point := p, bias := Bias.Left, valid := true }

/-- Modelled from the spec: `Anchor::to_point(buffer_snapshot)`. -/
def Anchor.to_point (a : Anchor) : Point := a.point

/-- Modelled from the spec: `Anchor::is_valid(buffer_snapshot)`. -/
def Anchor.is_valid (a : Anchor) : Bool := a.valid

/-- Embeds `Range<Anchor>` (field `end` written `«end»`). -/
structure AnchorRange where
  start : Anchor
  «end» : Anchor
deriving DecidableEq, Repr

/-- Modelled from the spec: the external `AnchorRangeExt::cmp` total order on
anchor ranges — ascending by start, ties broken on the end anchor. -/
def AnchorRange.cmp (a b : AnchorRange) : Ordering :=
  (Anchor.cmp a.start b.start).then (Anchor.cmp a.«end» b.«end»)

/-- Embeds `MultiBufferRow` (a `u32` row index). -/
abbrev MultiBufferRow := Nat

/-- Embeds `Range<MultiBufferRow>`. -/
structure RowRange where
  start : MultiBufferRow
  «end» : MultiBufferRow
deriving DecidableEq, Repr

/-- Embeds `Range<Point>` as returned by `crease_items_with_offsets`. -/
structure PointRange where
  start : Point
  «end» : Point
deriving DecidableEq, Repr

/-- Embeds `CreaseId(usize)`; `usize` is modelled as `Nat`. -/
structure CreaseId where
  val : Nat
deriving DecidableEq, Repr

/-- Embeds `Ord` on `CreaseId` (derived from the wrapped integer). -/
def CreaseId.cmp (a b : CreaseId) : Ordering := natCmp a.val b.val

/-- Embeds `CreaseMetadata`; the external UI types `IconName` and
`SharedString` are kept as type parameters. -/
structure CreaseMetadata (Icon Label : Type) where
  icon : Icon
  label : Label
deriving DecidableEq, Repr

/-- Embeds the `Crease` enum (single `Fold` variant).  The opaque render
payload types `FoldPlaceholder`, `RenderToggleFn` and `RenderTrailerFn` are
external and kept as the type parameters `P`, `T`, `R`. -/
inductive Crease (P T R Icon Label : Type) where
  | Fold (range : AnchorRange) (placeholder : P) (render_toggle : T)
      (render_trailer : R) (metadata : Option (CreaseMetadata Icon Label))
deriving DecidableEq

section CreaseModel

variable {P T R Icon Label : Type}

/-- Embeds `Crease::new`: builds a `Fold` crease with no metadata. -/
def Crease.new (range : AnchorRange) (placeholder : P) (render_toggle : T)
    (render_trailer : R) : Crease P T R Icon Label :=
  .Fold range placeholder render_toggle render_trailer none

/-- Embeds `Crease::with_metadata`: replaces only the metadata field. -/
def Crease.with_metadata :
    Crease P T R Icon Label → CreaseMetadata Icon Label → Crease P T R Icon Label
  | .Fold range placeholder render_toggle render_trailer _, metadata =>
      .Fold range placeholder render_toggle render_trailer (some metadata)

/-- Embeds `Crease::range`. -/
def Crease.range : Crease P T R Icon Label → AnchorRange
  | .Fold range _ _ _ _ => range

/-- Projection of the placeholder payload (used only to state properties). -/
def Crease.placeholder : Crease P T R Icon Label → P
  | .Fold _ p _ _ _ => p

/-- Projection of the toggle payload (used only to state properties). -/
def Crease.render_toggle : Crease P T R Icon Label → T
  | .Fold _ _ t _ _ => t

/-- Projection of the trailer payload (used only to state properties). -/
def Crease.render_trailer : Crease P T R Icon Label → R
  | .Fold _ _ _ r _ => r

/-- Projection of the metadata field (used only to state properties). -/
def Crease.metadata : Crease P T R Icon Label → Option (CreaseMetadata Icon Label)
  | .Fold _ _ _ _ m => m

/-- Embeds `CreaseItem`: the `(identity, crease)` pair stored in the tree. -/
structure CreaseItem (P T R Icon Label : Type) where
  id : CreaseId
  crease : Crease P T R Icon Label
deriving DecidableEq

/-- Modelled from the spec: the ordered crease sequence
(`SumTree<CreaseItem>`, spec section 4.1) represented by its left-to-right
entry list.  Each entry's `ItemSummary` is its crease's range, so seeking and
slicing on a sorted tree amount to splitting at the first entry not strictly
before the target. -/
abbrev CreaseSeq (P T R Icon Label : Type) := List (CreaseItem P T R Icon Label)

/-- Modelled from the spec: `cursor.slice(&range, Bias::Left)` — the entries
strictly before the range target (via the `SeekTarget` impl for
`Range<Anchor>`, which compares the target against the summary range). -/
def seqBefore (r : AnchorRange) (items : CreaseSeq P T R Icon Label) :
    CreaseSeq P T R Icon Label :=
  items.takeWhile fun e => decide (AnchorRange.cmp r e.crease.range = Ordering.gt)

/-- Modelled from the spec: the cursor position after
`cursor.slice(&range, Bias::Left)` — the remaining suffix. -/
def seqFrom (r : AnchorRange) (items : CreaseSeq P T R Icon Label) :
    CreaseSeq P T R Icon Label :=
  items.dropWhile fun e => decide (AnchorRange.cmp r e.crease.range = Ordering.gt)

/-- Modelled from the spec: `cursor.seek(&anchor, Bias::Left)` — drops the
entries strictly before the anchor target (via the `SeekTarget` impl for
`Anchor`, which compares the target against the summary range's start). -/
def seekAnchorLeft (a : Anchor) (items : CreaseSeq P T R Icon Label) :
    CreaseSeq P T R Icon Label :=
  items.dropWhile fun e => decide (Anchor.cmp a e.crease.range.start = Ordering.gt)

/-- Embeds `CreaseSnapshot`. -/
structure CreaseSnapshot (P T R Icon Label : Type) where
  creases : CreaseSeq P T R Icon Label
deriving DecidableEq

/-- Embeds `CreaseSnapshot::new` (an empty tree). -/
def CreaseSnapshot.new : CreaseSnapshot P T R Icon Label := ⟨[]⟩

/-- Embeds the scan loop of `CreaseSnapshot::query_row`: advance past entries
whose resolved start row is below `row`, return the first valid entry starting
exactly at `row`, stop as soon as a start row beyond `row` is seen. -/
def queryRowLoop (row : MultiBufferRow) :
    CreaseSeq P T R Icon Label → Option (Crease P T R Icon Label)
  | [] => none
  | item :: rest =>
    match natCmp item.crease.range.start.to_point.row row with
    | .lt => queryRowLoop row rest
    | .eq =>
      if item.crease.range.start.is_valid then some item.crease
      else queryRowLoop row rest
    | .gt => none

/-- Embeds `CreaseSnapshot::query_row`: seek to the anchor before
`(row, 0)` with left bias, then scan. -/
def CreaseSnapshot.query_row (s : CreaseSnapshot P T R Icon Label)
    (row : MultiBufferRow) : Option (Crease P T R Icon Label) :=
  let start := anchor_before ⟨row, 0⟩
  queryRowLoop row (seekAnchorLeft start s.creases)

/-- Embeds the iterator body of `CreaseSnapshot::creases_in_range`: skip a
crease whose resolved end row is greater than `range.end`, yield it when its
start row is at least `range.start` and its end row is strictly below
`range.end`, otherwise keep advancing. -/
def creasesInRangeLoop (rstart rend : MultiBufferRow) :
    CreaseSeq P T R Icon Label → List (Crease P T R Icon Label)
  | [] => []
  | item :: rest =>
    let crease_start := item.crease.range.start.to_point
    let crease_end := item.crease.range.«end».to_point
    if crease_end.row > rend then creasesInRangeLoop rstart rend rest
    else if crease_start.row ≥ rstart ∧ crease_end.row < rend then
      item.crease :: creasesInRangeLoop rstart rend rest
    else creasesInRangeLoop rstart rend rest

/-- Embeds `CreaseSnapshot::creases_in_range` (the finite iterator is
materialised as the list of yields, in order). -/
def CreaseSnapshot.creases_in_range (s : CreaseSnapshot P T R Icon Label)
    (range : RowRange) : List (Crease P T R Icon Label) :=
  let start := anchor_before ⟨range.start, 0⟩
  creasesInRangeLoop range.start range.«end» (seekAnchorLeft start s.creases)

/-- Embeds `CreaseSnapshot::crease_items_with_offsets`: a full in-order
traversal resolving each entry's anchors to points. -/
def CreaseSnapshot.crease_items_with_offsets (s : CreaseSnapshot P T R Icon Label) :
    List (CreaseId × PointRange) :=
  s.creases.map fun item =>
    (item.id, ⟨item.crease.range.start.to_point, item.crease.range.«end».to_point⟩)

/-- Embeds `CreaseMap`: the registry owning the current snapshot, the identity
counter and the reverse index (the `HashMap` is modelled as a function into
`Option`). -/
structure CreaseMap (P T R Icon Label : Type) where
  snapshot : CreaseSnapshot P T R Icon Label
  next_id : CreaseId
  id_to_range : CreaseId → Option AnchorRange

/-- Embeds `CreaseMap::new`. -/
def CreaseMap.new : CreaseMap P T R Icon Label :=
  { snapshot := CreaseSnapshot.new, next_id := ⟨0⟩, id_to_range := fun _ => none }

/-- Result of the `insert` loop: the rebuilt sequence, the updated reverse
index, the next free identity and the identities issued (in input order). -/
structure InsertResult (P T R Icon Label : Type) where
  seq : CreaseSeq P T R Icon Label
  idmap : CreaseId → Option AnchorRange
  next : Nat
  ids : List CreaseId

/-- Embeds the loop of `CreaseMap::insert`: for each input crease, slice off
the entries strictly before its range, allocate the next identity, record it
in the reverse index and push the new entry; finish with the cursor suffix. -/
def insertLoop (next : Nat) (idmap : CreaseId → Option AnchorRange) :
    List (Crease P T R Icon Label) → CreaseSeq P T R Icon Label →
      InsertResult P T R Icon Label
  | [], cursor => ⟨cursor, idmap, next, []⟩
  | crease :: rest, cursor =>
    let crease_range := crease.range
    let id : CreaseId := ⟨next⟩
    let r := insertLoop (next + 1)
      (fun k => if k = id then some crease_range else idmap k)
      rest (seqFrom crease_range cursor)
    ⟨seqBefore crease_range cursor ++ { id := id, crease := crease } :: r.seq,
      r.idmap, r.next, id :: r.ids⟩

/-- Embeds `CreaseMap::insert`: rebuild the sequence around the (pre-sorted)
batch and return the assigned identities positionally. -/
def CreaseMap.insert (m : CreaseMap P T R Icon Label)
    (creases : List (Crease P T R Icon Label)) :
    CreaseMap P T R Icon Label × List CreaseId :=
  let r := insertLoop m.next_id.val m.id_to_range creases m.snapshot.creases
  ({ snapshot := ⟨r.seq⟩, next_id := ⟨r.next⟩, id_to_range := r.idmap }, r.ids)

/-- Embeds the first loop of `CreaseMap::remove`: resolve each supplied
identity through the reverse index, deleting it there, silently skipping
identities that are not present. -/
def collectRemovals (idmap : CreaseId → Option AnchorRange) :
    List CreaseId → List (CreaseId × AnchorRange) × (CreaseId → Option AnchorRange)
  | [] => ([], idmap)
  | id :: rest =>
    match idmap id with
    | some range =>
      let r := collectRemovals (fun k => if k = id then none else idmap k) rest
      ((id, range) :: r.1, r.2)
    | none => collectRemovals idmap rest

/-- Embeds the sort comparator of `CreaseMap::remove`: ascending by range,
ties broken by descending identity. -/
def removalCmp (a b : CreaseId × AnchorRange) : Ordering :=
  (AnchorRange.cmp a.2 b.2).then (CreaseId.cmp b.1 a.1)

/-- The non-strict order induced by `removalCmp`. -/
def removalLe (a b : CreaseId × AnchorRange) : Prop :=
  removalCmp a b ≠ Ordering.gt

instance : DecidableRel removalLe := fun a b =>
  inferInstanceAs (Decidable ¬removalCmp a b = Ordering.gt)

/-- Embeds `removals.sort_unstable_by(...)`.  The comparator is total, and no
two collected removals compare equal (their identities differ), so any
comparison sort produces this unique order; insertion sort is used here. -/
def sortRemovals (l : List (CreaseId × AnchorRange)) :
    List (CreaseId × AnchorRange) :=
  List.insertionSort removalLe l

/-- Embeds the inner scan of `CreaseMap::remove`: push entries until the one
carrying the target identity is reached, drop that entry, and return the
pushed entries together with the remaining cursor suffix. -/
def scanForId (id : CreaseId) :
    CreaseSeq P T R Icon Label → CreaseSeq P T R Icon Label × CreaseSeq P T R Icon Label
  | [] => ([], [])
  | item :: rest =>
    if item.id = id then ([], rest)
    else
      let r := scanForId id rest
      (item :: r.1, r.2)

/-- Embeds the rebuild loop of `CreaseMap::remove`: for each sorted removal,
slice off the entries strictly before its recorded range, scan forward to drop
the matching entry, and finally append the cursor suffix. -/
def removeLoop : List (CreaseId × AnchorRange) → CreaseSeq P T R Icon Label →
    CreaseSeq P T R Icon Label
  | [], cursor => cursor
  | (id, range) :: rest, cursor =>
    let r := scanForId id (seqFrom range cursor)
    seqBefore range cursor ++ r.1 ++ removeLoop rest r.2

/-- Embeds `CreaseMap::remove`. -/
def CreaseMap.remove (m : CreaseMap P T R Icon Label) (ids : List CreaseId) :
    CreaseMap P T R Icon Label :=
  let c := collectRemovals m.id_to_range ids
  let removals := sortRemovals c.1
  { snapshot := ⟨removeLoop removals m.snapshot.creases⟩,
    next_id := m.next_id,
    id_to_range := c.2 }

/-- The order invariant (spec section 8): consecutive entries' ranges are in
non-decreasing comparator order. -/
def seqSorted (items : CreaseSeq P T R Icon Label) : Prop :=
  items.Pairwise fun a b => AnchorRange.cmp a.crease.range b.crease.range ≠ Ordering.gt

/-- A batch supplied to `insert` already sorted ascending by anchor range
(the documented precondition of `insert`). -/
def batchSorted (creases : List (Crease P T R Icon Label)) : Prop :=
  creases.Pairwise fun a b => AnchorRange.cmp a.range b.range ≠ Ordering.gt

instance (l : CreaseSeq P T R Icon Label) : Decidable (seqSorted l) := by
  unfold seqSorted; infer_instance

instance (creases : List (Crease P T R Icon Label)) : Decidable (batchSorted creases) := by
  unfold batchSorted; infer_instance

/-- The registry invariants of the spec (section 3): the sequence is sorted,
identities in the sequence are unique, the sequence and the reverse index are
in lockstep, and every recorded identity is below the allocation counter. -/
structure RegInvariant (m : CreaseMap P T R Icon Label) : Prop where
  sorted : seqSorted m.snapshot.creases
  nodup : (m.snapshot.creases.map CreaseItem.id).Nodup
  entry_map : ∀ e ∈ m.snapshot.creases, m.id_to_range e.id = some e.crease.range
  map_entry : ∀ id range, m.id_to_range id = some range →
    ∃ e ∈ m.snapshot.creases, e.id = id ∧ e.crease.range = range

/-- A registry operation: one `insert` call or one `remove` call. -/
inductive RegOp (P T R Icon Label : Type) where
  | ins (creases : List (Crease P T R Icon Label))
  | rem (ids : List CreaseId)

/-- Runs a list of registry operations, collecting all issued identities in
issuance order. -/
def runOps : CreaseMap P T R Icon Label → List (RegOp P T R Icon Label) →
    CreaseMap P T R Icon Label × List CreaseId
  | m, [] => (m, [])
  | m, .ins cs :: rest =>
    let r := m.insert cs
    let r' := runOps r.1 rest
    (r'.1, r.2 ++ r'.2)
  | m, .rem ids :: rest => runOps (m.remove ids) rest

end CreaseModel

/-! ### Comparator laws -/

theorem ordThenLt (x y : Ordering) :
    x.then y = Ordering.lt ↔ x = Ordering.lt ∨ (x = Ordering.eq ∧ y = Ordering.lt) := by
  cases x <;> simp [Ordering.then]

theorem ordThenEq (x y : Ordering) :
    x.then y = Ordering.eq ↔ x = Ordering.eq ∧ y = Ordering.eq := by
  cases x <;> simp [Ordering.then]

theorem ordThenGt (x y : Ordering) :
    x.then y = Ordering.gt ↔ x = Ordering.gt ∨ (x = Ordering.eq ∧ y = Ordering.gt) := by
  cases x <;> simp [Ordering.then]

theorem natCmp_lt_iff (a b : Nat) : natCmp a b = Ordering.lt ↔ a < b := by
  unfold natCmp; split_ifs <;> simp <;> omega

theorem natCmp_gt_iff (a b : Nat) : natCmp a b = Ordering.gt ↔ b < a := by
  unfold natCmp; split_ifs <;> simp <;> omega

theorem natCmp_eq_iff (a b : Nat) : natCmp a b = Ordering.eq ↔ a = b := by
  unfold natCmp; split_ifs <;> simp <;> omega

namespace LawfulCmp

variable {α β : Type _} {c : α → α → Ordering}

theorem cmp_refl (hc : LawfulCmp c) (a : α) : c a a = Ordering.eq := by
  have h := hc.symm a a
  cases heq : c a a with
  | lt => rw [heq] at h; simp [Ordering.swap] at h
  | eq => rfl
  | gt => rw [heq] at h; simp [Ordering.swap] at h

theorem eq_symm (hc : LawfulCmp c) {a b : α} (h : c a b = Ordering.eq) :
    c b a = Ordering.eq := by
  have s := hc.symm b a
  rw [h] at s; simpa [Ordering.swap] using s

theorem gt_iff_lt (hc : LawfulCmp c) (a b : α) :
    c a b = Ordering.gt ↔ c b a = Ordering.lt := by
  have s := hc.symm a b
  constructor
  · intro h; rw [h] at s
    cases hba : c b a <;> rw [hba] at s <;> simp [Ordering.swap] at s <;> rfl
  · intro h; rw [h] at s; simpa [Ordering.swap] using s

theorem eq_right (hc : LawfulCmp c) (a b d : α) (h : c b d = Ordering.eq) :
    c a b = c a d := by
  have h1 := hc.eq_left b d a h
  have h2 := hc.symm a b
  have h3 := hc.symm a d
  rw [h2, h3, h1]

theorem le_trans (hc : LawfulCmp c) {a b d : α}
    (hab : c a b ≠ Ordering.gt) (hbd : c b d ≠ Ordering.gt) : c a d ≠ Ordering.gt := by
  cases h1 : c a b with
  | gt => exact absurd h1 hab
  | eq => rw [hc.eq_left a b d h1]; exact hbd
  | lt =>
    cases h2 : c b d with
    | gt => exact absurd h2 hbd
    | eq => rw [← hc.eq_right a b d h2]; rw [h1]; simp
    | lt => rw [hc.lt_trans a b d h1 h2]; simp

theorem lt_le_trans (hc : LawfulCmp c) {a b d : α}
    (hab : c a b = Ordering.lt) (hbd : c b d ≠ Ordering.gt) : c a d = Ordering.lt := by
  cases h2 : c b d with
  | gt => exact absurd h2 hbd
  | eq => rw [← hc.eq_right a b d h2]; exact hab
  | lt => exact hc.lt_trans a b d hab h2

theorem le_lt_trans (hc : LawfulCmp c) {a b d : α}
    (hab : c a b ≠ Ordering.gt) (hbd : c b d = Ordering.lt) : c a d = Ordering.lt := by
  cases h1 : c a b with
  | gt => exact absurd h1 hab
  | eq => rw [hc.eq_left a b d h1]; exact hbd
  | lt => exact hc.lt_trans a b d h1 hbd

theorem eq_of_le_le (hc : LawfulCmp c) {a b : α}
    (hab : c a b ≠ Ordering.gt) (hba : c b a ≠ Ordering.gt) : c a b = Ordering.eq := by
  cases h : c a b with
  | lt => exact absurd ((hc.gt_iff_lt b a).2 h) hba
  | eq => rfl
  | gt => exact absurd h hab

theorem le_total (hc : LawfulCmp c) (a b : α) :
    c a b ≠ Ordering.gt ∨ c b a ≠ Ordering.gt := by
  cases h : c a b with
  | lt => left; simp [h]
  | eq => left; simp [h]
  | gt => right; rw [(hc.gt_iff_lt a b).1 h]; simp

theorem lex {c₁ c₂ : α → α → Ordering} (h₁ : LawfulCmp c₁) (h₂ : LawfulCmp c₂) :
    LawfulCmp (fun a b => (c₁ a b).then (c₂ a b)) := by
  constructor
  · intro a b
    have s1 := h₁.symm a b
    have s2 := h₂.symm a b
    cases hab : c₁ a b <;> cases hba : c₁ b a <;>
        rw [hab, hba] at s1 <;> simp [Ordering.swap] at s1 <;>
      simp [Ordering.then, Ordering.swap, s2]
  · intro a b d hab hbd
    simp only at hab hbd ⊢
    rw [ordThenLt] at hab hbd ⊢
    rcases hab with hab | ⟨hab, hab'⟩ <;> rcases hbd with hbd | ⟨hbd, hbd'⟩
    · exact Or.inl (h₁.lt_trans a b d hab hbd)
    · exact Or.inl (by rw [← h₁.eq_right a b d hbd]; exact hab)
    · exact Or.inl (by rw [h₁.eq_left a b d hab]; exact hbd)
    · refine Or.inr ⟨by rw [h₁.eq_left a b d hab]; exact hbd, h₂.lt_trans a b d hab' hbd'⟩
  · intro a b d h
    simp only at h ⊢
    rw [ordThenEq] at h
    rw [h₁.eq_left a b d h.1, h₂.eq_left a b d h.2]

theorem comap {cb : β → β → Ordering} (hc : LawfulCmp cb) (f : α → β) :
    LawfulCmp (fun a b => cb (f a) (f b)) :=
  ⟨fun a b => hc.symm _ _, fun a b d => hc.lt_trans _ _ _, fun a b d => hc.eq_left _ _ _⟩

theorem flipped (hc : LawfulCmp c) : LawfulCmp (fun a b => c b a) := by
  constructor
  · intro a b; exact hc.symm b a
  · intro a b d hab hbd; exact hc.lt_trans d b a hbd hab
  · intro a b d h
    have h' : c a b = Ordering.eq := hc.eq_symm h
    exact hc.eq_right d a b h'

end LawfulCmp

theorem natCmp_lawful : LawfulCmp natCmp := by
  constructor
  · intro a b
    rcases Nat.lt_trichotomy a b with h | h | h
    · rw [(natCmp_lt_iff a b).2 h, (natCmp_gt_iff b a).2 h]; rfl
    · rw [(natCmp_eq_iff a b).2 h, (natCmp_eq_iff b a).2 h.symm]; rfl
    · rw [(natCmp_gt_iff a b).2 h, (natCmp_lt_iff b a).2 h]; rfl
  · intro a b d hab hbd
    exact (natCmp_lt_iff a d).2
      (Nat.lt_trans ((natCmp_lt_iff a b).1 hab) ((natCmp_lt_iff b d).1 hbd))
  · intro a b d h
    rw [(natCmp_eq_iff a b).1 h]

theorem biasCmp_lawful : LawfulCmp Bias.cmp := by
  constructor
  · intro a b; cases a <;> cases b <;> rfl
  · intro a b d hab hbd; cases a <;> cases b <;> cases d <;> simp_all [Bias.cmp]
  · intro a b d h; cases a <;> cases b <;> cases d <;> simp_all [Bias.cmp]

theorem pointCmp_lawful : LawfulCmp Point.cmp :=
  LawfulCmp.lex (natCmp_lawful.comap Point.row) (natCmp_lawful.comap Point.column)

theorem anchorCmp_lawful : LawfulCmp Anchor.cmp :=
  LawfulCmp.lex (pointCmp_lawful.comap Anchor.point) (biasCmp_lawful.comap Anchor.bias)

theorem rangeCmp_lawful : LawfulCmp AnchorRange.cmp :=
  LawfulCmp.lex (anchorCmp_lawful.comap AnchorRange.start)
    (anchorCmp_lawful.comap AnchorRange.«end»)

theorem creaseIdCmp_lawful : LawfulCmp CreaseId.cmp :=
  natCmp_lawful.comap CreaseId.val

theorem removalCmp_lawful : LawfulCmp removalCmp :=
  LawfulCmp.lex (rangeCmp_lawful.comap Prod.snd)
    ((creaseIdCmp_lawful.flipped).comap Prod.fst)

/-! ### Facts about the modelled seek targets -/

/-- Seeking to the anchor before `(r, 0)` with left bias passes exactly the
entries whose start anchor resolves strictly above row `r`. -/
theorem anchorBefore_cmp_gt_iff (r : Nat) (a : Anchor) :
    Anchor.cmp (anchor_before ⟨r, 0⟩) a = Ordering.gt ↔ a.point.row < r := by
  cases a with
  | mk pt b v =>
    cases pt with
    | mk arow acol =>
      simp only [Anchor.cmp, anchor_before, Point.cmp, ordThenGt, ordThenEq,
        natCmp_gt_iff, natCmp_eq_iff]
      cases b <;> simp [Bias.cmp] <;> omega

/-- Range order is compatible with resolved start rows. -/
theorem rangeLe_start_row_le (r1 r2 : AnchorRange)
    (h : AnchorRange.cmp r1 r2 ≠ Ordering.gt) :
    r1.start.point.row ≤ r2.start.point.row := by
  by_contra hlt
  apply h
  have hnat : natCmp r1.start.point.row r2.start.point.row = Ordering.gt :=
    (natCmp_gt_iff _ _).2 (by omega)
  unfold AnchorRange.cmp
  rw [ordThenGt]
  left
  unfold Anchor.cmp
  rw [ordThenGt]
  left
  unfold Point.cmp
  rw [ordThenGt]
  exact Or.inl hnat

/-- Filtering commutes with dropping a prefix that the filter rejects. -/
theorem filter_dropWhile_of_imp {α : Type _} (p q : α → Bool) (l : List α)
    (h : ∀ a, p a = true → q a = false) :
    (l.dropWhile p).filter q = l.filter q := by
  conv_rhs => rw [← List.takeWhile_append_dropWhile (p := p) (l := l)]
  rw [List.filter_append]
  have hnil : (l.takeWhile p).filter q = [] := by
    rw [List.filter_eq_nil]
    intro a ha
    simp [h a (List.mem_takeWhile_imp ha)]
  rw [hnil, List.nil_append]

/-- Searching commutes with dropping a prefix that the search rejects. -/
theorem find?_dropWhile_of_imp {α : Type _} (p q : α → Bool) (l : List α)
    (h : ∀ a, p a = true → q a = false) :
    (l.dropWhile p).find? q = l.find? q := by
  induction l with
  | nil => rfl
  | cons x xs ih =>
    by_cases hp : p x = true
    · rw [List.dropWhile_cons, if_pos hp, ih, List.find?_cons, h x hp]
    · rw [List.dropWhile_cons, if_neg hp]

section CreaseModel

variable {P T R Icon Label : Type}

/-- Slicing and the remaining cursor partition the sequence. -/
theorem seqBefore_append_seqFrom (r : AnchorRange) (l : CreaseSeq P T R Icon Label) :
    seqBefore r l ++ seqFrom r l = l := by
  unfold seqBefore seqFrom
  exact List.takeWhile_append_dropWhile _ _

/-- Every sliced-off entry is strictly before the target range. -/
theorem mem_seqBefore_lt (r : AnchorRange) {l : CreaseSeq P T R Icon Label}
    {e : CreaseItem P T R Icon Label} (he : e ∈ seqBefore r l) :
    AnchorRange.cmp r e.crease.range = Ordering.gt := by
  have := List.mem_takeWhile_imp he
  simpa using this

/-- On a sorted sequence, every entry left after slicing is at or past the
target range. -/
theorem mem_seqFrom_le (r : AnchorRange) {l : CreaseSeq P T R Icon Label} :
    seqSorted l → ∀ e ∈ seqFrom r l,
      AnchorRange.cmp r e.crease.range ≠ Ordering.gt := by
  induction l with
  | nil => intro _ e he; simp [seqFrom] at he
  | cons x xs ih =>
    intro hs e he
    have hx := (List.pairwise_cons.1 hs).1
    have hxs := (List.pairwise_cons.1 hs).2
    by_cases hp : AnchorRange.cmp r x.crease.range = Ordering.gt
    · have he' : e ∈ seqFrom r xs := by
        simpa [seqFrom, List.dropWhile_cons, hp] using he
      exact ih hxs e he'
    · have he' : e ∈ x :: xs := by
        simpa [seqFrom, List.dropWhile_cons, hp] using he
      rcases List.mem_cons.1 he' with he'' | he''
      · rw [he'']; exact hp
      · exact rangeCmp_lawful.le_trans hp (hx e he'')

/-- An entry that is not strictly before the target stays in the cursor. -/
theorem mem_seqFrom_of_not_lt (r : AnchorRange) {l : CreaseSeq P T R Icon Label}
    {e : CreaseItem P T R Icon Label} (he : e ∈ l)
    (hnot : AnchorRange.cmp r e.crease.range ≠ Ordering.gt) :
    e ∈ seqFrom r l := by
  have hsplit := seqBefore_append_seqFrom r l
  rcases (List.mem_append.1 (by rw [hsplit]; exact he)) with h | h
  · exact absurd (mem_seqBefore_lt r h) hnot
  · exact h

end CreaseModel

section CreaseModel

variable {P T R Icon Label : Type}

/-- The rebuilt sequence of `insert` has the old entries plus the batch. -/
theorem insertLoop_seq_length (cs : List (Crease P T R Icon Label)) :
    ∀ (next : Nat) (idmap : CreaseId → Option AnchorRange)
      (cursor : CreaseSeq P T R Icon Label),
      (insertLoop next idmap cs cursor).seq.length = cursor.length + cs.length := by
  induction cs with
  | nil => intro next idmap cursor; rfl
  | cons c rest ih =>
    intro next idmap cursor
    simp only [insertLoop, List.length_append, List.length_cons, ih]
    have hsplit :
        (seqBefore c.range cursor).length + (seqFrom c.range cursor).length =
          cursor.length := by
      rw [← List.length_append, seqBefore_append_seqFrom]
    omega

/-- Identities absent from the reverse index stay absent while collecting. -/
theorem collect_none_stable (ids : List CreaseId) :
    ∀ (idmap : CreaseId → Option AnchorRange) (k : CreaseId), idmap k = none →
      (collectRemovals idmap ids).2 k = none := by
  induction ids with
  | nil => intro idmap k h; exact h
  | cons i rest ih =>
    intro idmap k h
    cases hi : idmap i with
    | some r =>
      simp only [collectRemovals, hi]
      exact ih _ k (by by_cases hk : k = i <;> simp [hk, h])
    | none =>
      simp only [collectRemovals, hi]
      exact ih idmap k h

/-- Every supplied identity is erased from the reverse index. -/
theorem collect_mem_none (ids : List CreaseId) :
    ∀ (idmap : CreaseId → Option AnchorRange) (k : CreaseId), k ∈ ids →
      (collectRemovals idmap ids).2 k = none := by
  induction ids with
  | nil => intro idmap k h; simp at h
  | cons i rest ih =>
    intro idmap k hk
    cases hi : idmap i with
    | some r =>
      simp only [collectRemovals, hi]
      rcases List.mem_cons.1 hk with hk' | hk'
      · subst hk'; exact collect_none_stable rest _ k (by simp)
      · exact ih _ k hk'
    | none =>
      simp only [collectRemovals, hi]
      rcases List.mem_cons.1 hk with hk' | hk'
      · subst hk'; exact collect_none_stable rest idmap k hi
      · exact ih idmap k hk'

/-- Removing a single identity that the reverse index does not know is a
complete no-op on the registry. -/
theorem remove_absent_eq {m : CreaseMap P T R Icon Label} {id : CreaseId}
    (h : m.id_to_range id = none) : m.remove [id] = m := by
  rcases m with ⟨⟨cr⟩, nid, idmap⟩
  simp only [CreaseMap.id_to_range] at h
  have hc : collectRemovals idmap [id] = ([], idmap) := by
    simp [collectRemovals, h]
  simp only [CreaseMap.remove, CreaseMap.id_to_range, CreaseMap.snapshot,
    CreaseSnapshot.creases, hc]
  simp [sortRemovals, removeLoop, List.insertionSort]

/-- After a removal, every supplied identity is gone from the reverse index. -/
theorem remove_id_to_range_none (m : CreaseMap P T R Icon Label)
    (ids : List CreaseId) {id : CreaseId} (hid : id ∈ ids) :
    (m.remove ids).id_to_range id = none :=
  collect_mem_none ids m.id_to_range id hid

/-- The scan of `remove` keeps a sub-sequence of the cursor. -/
theorem scanForId_sublist (id : CreaseId) (l : CreaseSeq P T R Icon Label) :
    List.Sublist ((scanForId id l).1 ++ (scanForId id l).2) l := by
  induction l with
  | nil => simp [scanForId]
  | cons x xs ih =>
    by_cases hx : x.id = id
    · simp only [scanForId, if_pos hx]
      exact List.sublist_cons_self x xs
    · simp only [scanForId, if_neg hx, List.cons_append]
      exact List.Sublist.cons₂ x ih

/-- The rebuilt sequence of `remove` is a sub-sequence of the original. -/
theorem removeLoop_sublist (removals : List (CreaseId × AnchorRange)) :
    ∀ l : CreaseSeq P T R Icon Label, List.Sublist (removeLoop removals l) l := by
  induction removals with
  | nil => intro l; exact List.Sublist.refl l
  | cons p rest ih =>
    intro l
    obtain ⟨id, range⟩ := p
    simp only [removeLoop]
    have h1 : List.Sublist (removeLoop rest (scanForId id (seqFrom range l)).2)
        (scanForId id (seqFrom range l)).2 := ih _
    have h2 := (List.Sublist.append_left h1 (scanForId id (seqFrom range l)).1).trans
      (scanForId_sublist id (seqFrom range l))
    have h3 := List.Sublist.append_left h2 (seqBefore range l)
    rw [seqBefore_append_seqFrom] at h3
    rw [List.append_assoc]
    exact h3

/-- Evaluation of `query_row` on a one-entry snapshot. -/
theorem queryRow_single (e : CreaseItem P T R Icon Label) (row : Nat) :
    (CreaseSnapshot.mk [e]).query_row row =
      if e.crease.range.start.point.row = row ∧ e.crease.range.start.valid = true
      then some e.crease else none := by
  simp only [CreaseSnapshot.query_row, seekAnchorLeft]
  by_cases h1 : e.crease.range.start.point.row < row
  · have hgt : Anchor.cmp (anchor_before ⟨row, 0⟩) e.crease.range.start = Ordering.gt :=
      (anchorBefore_cmp_gt_iff row _).2 h1
    rw [if_neg (by rintro ⟨hr, _⟩; omega)]
    simp [List.dropWhile_cons, hgt, queryRowLoop]
  · have hle : Anchor.cmp (anchor_before ⟨row, 0⟩) e.crease.range.start ≠ Ordering.gt := by
      intro hcon
      exact h1 ((anchorBefore_cmp_gt_iff row _).1 hcon)
    rw [List.dropWhile_cons, if_neg (by simpa using hle)]
    by_cases h2 : e.crease.range.start.point.row = row
    · have hcmp : natCmp e.crease.range.start.to_point.row row = Ordering.eq := by
        unfold Anchor.to_point; exact (natCmp_eq_iff _ _).2 h2
      by_cases hv : e.crease.range.start.valid = true
      · simp [queryRowLoop, hcmp, Anchor.is_valid, hv, h2]
      · simp [queryRowLoop, hcmp, Anchor.is_valid, hv, h2]
    · have h3 : row < e.crease.range.start.point.row := by omega
      have hcmp : natCmp e.crease.range.start.to_point.row row = Ordering.gt := by
        unfold Anchor.to_point; exact (natCmp_gt_iff _ _).2 h3
      simp [queryRowLoop, hcmp, h2]

/-- C9: `with_metadata` returns a crease with the same range, placeholder,
toggle and trailer payload, with only the metadata replaced by the given
value; the input value is left untouched (the operation is pure) and
attaching the same metadata twice equals attaching it once. -/
theorem c9_with_metadata_pure (c : Crease P T R Icon Label)
    (md : CreaseMetadata Icon Label) :
    (c.with_metadata md).range = c.range ∧
    (c.with_metadata md).placeholder = c.placeholder ∧
    (c.with_metadata md).render_toggle = c.render_toggle ∧
    (c.with_metadata md).render_trailer = c.render_trailer ∧
    (c.with_metadata md).metadata = some md ∧
    (c.with_metadata md).with_metadata md = c.with_metadata md := by
  cases c
  simp [Crease.with_metadata, Crease.range, Crease.placeholder,
    Crease.render_toggle, Crease.render_trailer, Crease.metadata]

/-- C8: removing an identity unknown to the reverse index (in particular one
that was already removed) is a silent no-op: sequence, reverse index and
identity counter are unchanged; removing the same identity twice is a no-op
the second time. -/
theorem c8_remove_unknown_noop (m : CreaseMap P T R Icon Label) (id : CreaseId) :
    (m.id_to_range id = none →
      (m.remove [id]).snapshot = m.snapshot ∧
      (m.remove [id]).next_id = m.next_id ∧
      ∀ k, (m.remove [id]).id_to_range k = m.id_to_range k) ∧
    (((m.remove [id]).remove [id]).snapshot = (m.remove [id]).snapshot ∧
      ((m.remove [id]).remove [id]).next_id = (m.remove [id]).next_id ∧
      ∀ k, ((m.remove [id]).remove [id]).id_to_range k = (m.remove [id]).id_to_range k) := by
  constructor
  · intro h
    rw [remove_absent_eq h]
    exact ⟨rfl, rfl, fun _ => rfl⟩
  · have h' : (m.remove [id]).id_to_range id = none :=
      remove_id_to_range_none m [id] (by simp)
    rw [remove_absent_eq h']
    exact ⟨rfl, rfl, fun _ => rfl⟩

/-- Witness for C8 at a concrete registry. -/
theorem c8_witness :
    (@CreaseMap.new Unit Unit Unit Unit Unit).id_to_range ⟨0⟩ = none ∧
    ((@CreaseMap.new Unit Unit Unit Unit Unit).remove [⟨0⟩]).snapshot =
      (@CreaseMap.new Unit Unit Unit Unit Unit).snapshot ∧
    (((@CreaseMap.new Unit Unit Unit Unit Unit).remove [⟨0⟩]).remove [⟨0⟩]).next_id =
      ((@CreaseMap.new Unit Unit Unit Unit Unit).remove [⟨0⟩]).next_id := by
  refine ⟨rfl, ?_, ?_⟩
  · exact ((c8_remove_unknown_noop CreaseMap.new ⟨0⟩).1 rfl).1
  · exact (c8_remove_unknown_noop CreaseMap.new ⟨0⟩).2.2.1

/-- C6: a snapshot taken before a mutation keeps answering all three queries
from its original crease set (snapshots are immutable values), while the
registry's own state moves on: `insert` grows the sequence by the batch
length (so a non-empty insert makes the current snapshot differ from the
captured one) and `remove` keeps a sub-sequence. -/
theorem c6_snapshot_isolation (m : CreaseMap P T R Icon Label)
    (cs : List (Crease P T R Icon Label)) (ids : List CreaseId) :
    (∀ row, (CreaseMap.snapshot m).query_row row = m.snapshot.query_row row) ∧
    (∀ rng, (CreaseMap.snapshot m).creases_in_range rng =
      m.snapshot.creases_in_range rng) ∧
    ((CreaseMap.snapshot m).crease_items_with_offsets =
      m.snapshot.crease_items_with_offsets) ∧
    ((m.insert cs).1.snapshot.creases.length =
      m.snapshot.creases.length + cs.length) ∧
    (List.Sublist (m.remove ids).snapshot.creases m.snapshot.creases) ∧
    (cs ≠ [] → (m.insert cs).1.snapshot ≠ CreaseMap.snapshot m) := by
  have hlen : (m.insert cs).1.snapshot.creases.length =
      m.snapshot.creases.length + cs.length :=
    insertLoop_seq_length cs m.next_id.val m.id_to_range m.snapshot.creases
  refine ⟨fun _ => rfl, fun _ => rfl, rfl, hlen, removeLoop_sublist _ _, ?_⟩
  intro hcs heq
  have h1 := congrArg (fun s : CreaseSnapshot P T R Icon Label => s.creases.length) heq
  simp only at h1
  rw [hlen] at h1
  have : cs.length = 0 := by omega
  exact hcs (List.length_eq_zero.1 this)

/-- Witness for C6 with a non-empty batch. -/
theorem c6_witness :
    ((@CreaseMap.new Unit Unit Unit Unit Unit).insert
        [Crease.new ⟨⟨⟨1, 0⟩, .Left, true⟩, ⟨⟨1, 5⟩, .Right, true⟩⟩ () () ()]).1.snapshot ≠
      CreaseMap.snapshot (@CreaseMap.new Unit Unit Unit Unit Unit) := by
  exact (c6_snapshot_isolation CreaseMap.new _ []).2.2.2.2.2 (by simp)

/-- C4 counterexample: for a single crease spanning rows 1 to 3 inserted into
an empty registry, `query_row` at the end row 3 returns none (the claim says
it returns the crease); only the start row 1 finds it. -/
theorem c4_counterexample :
    ((@CreaseMap.new Unit Unit Unit Unit Unit).insert
        [Crease.new ⟨⟨⟨1, 0⟩, .Left, true⟩, ⟨⟨3, 5⟩, .Right, true⟩⟩ () () ()]).1.snapshot.query_row 1 =
      some (Crease.new ⟨⟨⟨1, 0⟩, .Left, true⟩, ⟨⟨3, 5⟩, .Right, true⟩⟩ () () ()) ∧
    ((@CreaseMap.new Unit Unit Unit Unit Unit).insert
        [Crease.new ⟨⟨⟨1, 0⟩, .Left, true⟩, ⟨⟨3, 5⟩, .Right, true⟩⟩ () () ()]).1.snapshot.query_row 3 =
      none := by
  decide

/-- C4 (amended): a crease with valid start anchor spanning rows `r1 < r2`,
inserted into an empty registry, is returned by `query_row` at its start row
`r1` only; `query_row` at every other row — including the end row `r2` —
returns none. -/
theorem c4_query_row_roundtrip (c : Crease P T R Icon Label) (r1 r2 : MultiBufferRow)
    (h1 : c.range.start.to_point.row = r1)
    (h2 : c.range.«end».to_point.row = r2)
    (h12 : r1 < r2)
    (hv : c.range.start.is_valid = true) :
    (((@CreaseMap.new P T R Icon Label).insert [c]).1.snapshot.query_row r1 = some c) ∧
    (∀ r, r ≠ r1 →
      ((@CreaseMap.new P T R Icon Label).insert [c]).1.snapshot.query_row r = none) := by
  have hsnap : (((@CreaseMap.new P T R Icon Label).insert [c]).1).snapshot =
      CreaseSnapshot.mk [⟨⟨0⟩, c⟩] := rfl
  rw [hsnap]
  constructor
  · rw [queryRow_single]
    exact if_pos ⟨h1, hv⟩
  · intro r hr
    rw [queryRow_single]
    refine if_neg ?_
    rintro ⟨hrow, _⟩
    apply hr
    have hrow' : c.range.start.point.row = r := hrow
    have h1' : c.range.start.point.row = r1 := h1
    rw [← hrow']
    exact h1'

/-- Witness for C4's amended theorem at rows 1 and 3. -/
theorem c4_witness :
    (((@CreaseMap.new Unit Unit Unit Unit Unit).insert
        [Crease.new ⟨⟨⟨1, 0⟩, .Left, true⟩, ⟨⟨3, 5⟩, .Right, true⟩⟩ () () ()]).1.snapshot.query_row 1 =
      some (Crease.new ⟨⟨⟨1, 0⟩, .Left, true⟩, ⟨⟨3, 5⟩, .Right, true⟩⟩ () () ())) ∧
    (((@CreaseMap.new Unit Unit Unit Unit Unit).insert
        [Crease.new ⟨⟨⟨1, 0⟩, .Left, true⟩, ⟨⟨3, 5⟩, .Right, true⟩⟩ () () ()]).1.snapshot.query_row 0 =
      none) ∧
    (((@CreaseMap.new Unit Unit Unit Unit Unit).insert
        [Crease.new ⟨⟨⟨1, 0⟩, .Left, true⟩, ⟨⟨3, 5⟩, .Right, true⟩⟩ () () ()]).1.snapshot.query_row 3 =
      none) := by
  have h := c4_query_row_roundtrip
    (Crease.new ⟨⟨⟨1, 0⟩, .Left, true⟩, ⟨⟨3, 5⟩, .Right, true⟩⟩ () () () :
      Crease Unit Unit Unit Unit Unit)
    1 3 rfl rfl (by decide) rfl
  exact ⟨h.1, h.2 0 (by decide), h.2 3 (by decide)⟩

/-- C10 counterexample: inserting one batch of two creases with coincident
ranges into an empty registry stores the earlier-inserted entry (smaller
identity) first, so identities among equal ranges are ascending, not
descending. -/
theorem c10_counterexample :
    (((@CreaseMap.new Unit Unit Unit Unit Unit).insert
        [Crease.new ⟨⟨⟨1, 0⟩, .Left, true⟩, ⟨⟨1, 5⟩, .Right, true⟩⟩ () () (),
          Crease.new ⟨⟨⟨1, 0⟩, .Left, true⟩, ⟨⟨1, 5⟩, .Right, true⟩⟩ () () ()]).1.snapshot.creases.map
        CreaseItem.id = [⟨0⟩, ⟨1⟩]) ∧
    AnchorRange.cmp ⟨⟨⟨1, 0⟩, .Left, true⟩, ⟨⟨1, 5⟩, .Right, true⟩⟩
      ⟨⟨⟨1, 0⟩, .Left, true⟩, ⟨⟨1, 5⟩, .Right, true⟩⟩ = Ordering.eq ∧
    ¬ (((@CreaseMap.new Unit Unit Unit Unit Unit).insert
        [Crease.new ⟨⟨⟨1, 0⟩, .Left, true⟩, ⟨⟨1, 5⟩, .Right, true⟩⟩ () () (),
          Crease.new ⟨⟨⟨1, 0⟩, .Left, true⟩, ⟨⟨1, 5⟩, .Right, true⟩⟩ () () ()]).1.snapshot.creases.Pairwise
        fun a b => AnchorRange.cmp a.crease.range b.crease.range = Ordering.eq →
          b.id.val < a.id.val) := by
  decide

/-- C10 (amended): a single-crease `insert` places the new entry directly
after the entries strictly before its range, hence ahead of every equal-range
entry that existed before the call (equal-range entries of one batch keep
their batch order, as the counterexample shows; the newest-first order among
equal ranges holds across separate insert calls). -/
theorem c10_insert_before_existing (m : CreaseMap P T R Icon Label)
    (c : Crease P T R Icon Label) :
    ((m.insert [c]).1.snapshot.creases =
      seqBefore c.range m.snapshot.creases ++
        ⟨m.next_id, c⟩ :: seqFrom c.range m.snapshot.creases) ∧
    (∀ e ∈ m.snapshot.creases,
      AnchorRange.cmp e.crease.range c.range = Ordering.eq →
        e ∈ seqFrom c.range m.snapshot.creases) := by
  constructor
  · rfl
  · intro e he heq
    refine mem_seqFrom_of_not_lt c.range he ?_
    intro hgt
    have heq' : AnchorRange.cmp c.range e.crease.range = Ordering.eq :=
      rangeCmp_lawful.eq_symm heq
    rw [heq'] at hgt
    simp at hgt

/-- Witness for C10's amended theorem: a second insert call with the same
range lands ahead of the first call's entry. -/
theorem c10_witness :
    ((((@CreaseMap.new Unit Unit Unit Unit Unit).insert
        [Crease.new ⟨⟨⟨1, 0⟩, .Left, true⟩, ⟨⟨1, 5⟩, .Right, true⟩⟩ () () ()]).1.insert
          [Crease.new ⟨⟨⟨1, 0⟩, .Left, true⟩, ⟨⟨1, 5⟩, .Right, true⟩⟩ () () ()]).1.snapshot.creases =
      seqBefore (Crease.new ⟨⟨⟨1, 0⟩, .Left, true⟩, ⟨⟨1, 5⟩, .Right, true⟩⟩ () () () :
          Crease Unit Unit Unit Unit Unit).range
        ((@CreaseMap.new Unit Unit Unit Unit Unit).insert
          [Crease.new ⟨⟨⟨1, 0⟩, .Left, true⟩, ⟨⟨1, 5⟩, .Right, true⟩⟩ () () ()]).1.snapshot.creases ++
        ⟨((@CreaseMap.new Unit Unit Unit Unit Unit).insert
            [Crease.new ⟨⟨⟨1, 0⟩, .Left, true⟩, ⟨⟨1, 5⟩, .Right, true⟩⟩ () () ()]).1.next_id,
          Crease.new ⟨⟨⟨1, 0⟩, .Left, true⟩, ⟨⟨1, 5⟩, .Right, true⟩⟩ () () ()⟩ ::
          seqFrom (Crease.new ⟨⟨⟨1, 0⟩, .Left, true⟩, ⟨⟨1, 5⟩, .Right, true⟩⟩ () () () :
              Crease Unit Unit Unit Unit Unit).range
            ((@CreaseMap.new Unit Unit Unit Unit Unit).insert
              [Crease.new ⟨⟨⟨1, 0⟩, .Left, true⟩, ⟨⟨1, 5⟩, .Right, true⟩⟩ () () ()]).1.snapshot.creases) ∧
    (⟨⟨0⟩, Crease.new ⟨⟨⟨1, 0⟩, .Left, true⟩, ⟨⟨1, 5⟩, .Right, true⟩⟩ () () ()⟩ :
        CreaseItem Unit Unit Unit Unit Unit) ∈
      seqFrom (Crease.new ⟨⟨⟨1, 0⟩, .Left, true⟩, ⟨⟨1, 5⟩, .Right, true⟩⟩ () () () :
          Crease Unit Unit Unit Unit Unit).range
        ((@CreaseMap.new Unit Unit Unit Unit Unit).insert
          [Crease.new ⟨⟨⟨1, 0⟩, .Left, true⟩, ⟨⟨1, 5⟩, .Right, true⟩⟩ () () ()]).1.snapshot.creases := by
  refine ⟨(c10_insert_before_existing _ _).1, ?_⟩
  exact (c10_insert_before_existing
      ((@CreaseMap.new Unit Unit Unit Unit Unit).insert
        [Crease.new ⟨⟨⟨1, 0⟩, .Left, true⟩, ⟨⟨1, 5⟩, .Right, true⟩⟩ () () ()]).1
      (Crease.new ⟨⟨⟨1, 0⟩, .Left, true⟩, ⟨⟨1, 5⟩, .Right, true⟩⟩ () () ())).2
    ⟨⟨0⟩, Crease.new ⟨⟨⟨1, 0⟩, .Left, true⟩, ⟨⟨1, 5⟩, .Right, true⟩⟩ () () ()⟩
    (by decide) (by decide)

/-- The yield loop of `creases_in_range` is exactly a filter by the inclusion
test (the skip branch for end rows beyond the range never yields anyway). -/
theorem creasesInRangeLoop_eq_filter (rstart rend : Nat)
    (l : CreaseSeq P T R Icon Label) :
    creasesInRangeLoop rstart rend l =
      (l.filter fun e =>
        decide (rstart ≤ e.crease.range.start.to_point.row ∧
          e.crease.range.«end».to_point.row < rend)).map CreaseItem.crease := by
  induction l with
  | nil => rfl
  | cons x xs ih =>
    simp only [creasesInRangeLoop, List.filter_cons]
    by_cases h1 : x.crease.range.«end».to_point.row > rend
    · rw [if_pos h1]
      have hq : ¬(rstart ≤ x.crease.range.start.to_point.row ∧
          x.crease.range.«end».to_point.row < rend) := by omega
      simp [hq, ih]
    · rw [if_neg h1]
      by_cases h2 : x.crease.range.start.to_point.row ≥ rstart ∧
          x.crease.range.«end».to_point.row < rend
      · rw [if_pos h2]
        have hq : rstart ≤ x.crease.range.start.to_point.row ∧
            x.crease.range.«end».to_point.row < rend := ⟨h2.1, h2.2⟩
        simp [hq, ih]
      · rw [if_neg h2]
        have hq : ¬(rstart ≤ x.crease.range.start.to_point.row ∧
            x.crease.range.«end».to_point.row < rend) := fun hh => h2 ⟨hh.1, hh.2⟩
        simp [hq, ih]

/-- C2: on a sorted snapshot, `creases_in_range` yields exactly the creases
whose resolved start row is at least `range.start` and whose resolved end row
is strictly below `range.end`, in sequence order; in particular an entry
whose end row equals `range.end` exactly is never kept by the test. -/
theorem c2_creases_in_range_filter (s : CreaseSnapshot P T R Icon Label)
    (hs : seqSorted s.creases) (range : RowRange) :
    (s.creases_in_range range =
      (s.creases.filter fun e =>
        decide (range.start ≤ e.crease.range.start.to_point.row ∧
          e.crease.range.«end».to_point.row < range.«end»)).map CreaseItem.crease) ∧
    (∀ e ∈ s.creases, e.crease.range.«end».to_point.row = range.«end» →
      e ∉ s.creases.filter fun e =>
        decide (range.start ≤ e.crease.range.start.to_point.row ∧
          e.crease.range.«end».to_point.row < range.«end»)) := by
  constructor
  · unfold CreaseSnapshot.creases_in_range seekAnchorLeft
    rw [creasesInRangeLoop_eq_filter]
    congr 1
    apply filter_dropWhile_of_imp
    intro a hpa
    rw [decide_eq_true_eq] at hpa
    have hlt : a.crease.range.start.point.row < range.start :=
      (anchorBefore_cmp_gt_iff _ _).1 hpa
    rw [decide_eq_false_iff_not]
    rintro ⟨hge, _⟩
    unfold Anchor.to_point at hge
    omega
  · intro e he hrow hmem
    have hp := (List.mem_filter.1 hmem).2
    have hp' : range.start ≤ e.crease.range.start.to_point.row ∧
        e.crease.range.«end».to_point.row < range.«end» := by simpa using hp
    omega

/-- Witness for C2 on a three-crease snapshot at rows 1, 3, 5 with the row
range 2..5: only the row-3 crease is yielded. -/
theorem c2_witness :
    seqSorted [
      (⟨⟨0⟩, Crease.new ⟨⟨⟨1, 0⟩, .Left, true⟩, ⟨⟨1, 5⟩, .Right, true⟩⟩ () () ()⟩ :
        CreaseItem Unit Unit Unit Unit Unit),
      ⟨⟨1⟩, Crease.new ⟨⟨⟨3, 0⟩, .Left, true⟩, ⟨⟨3, 5⟩, .Right, true⟩⟩ () () ()⟩,
      ⟨⟨2⟩, Crease.new ⟨⟨⟨5, 0⟩, .Left, true⟩, ⟨⟨5, 5⟩, .Right, true⟩⟩ () () ()⟩] ∧
    (CreaseSnapshot.mk [
      (⟨⟨0⟩, Crease.new ⟨⟨⟨1, 0⟩, .Left, true⟩, ⟨⟨1, 5⟩, .Right, true⟩⟩ () () ()⟩ :
        CreaseItem Unit Unit Unit Unit Unit),
      ⟨⟨1⟩, Crease.new ⟨⟨⟨3, 0⟩, .Left, true⟩, ⟨⟨3, 5⟩, .Right, true⟩⟩ () () ()⟩,
      ⟨⟨2⟩, Crease.new ⟨⟨⟨5, 0⟩, .Left, true⟩, ⟨⟨5, 5⟩, .Right, true⟩⟩ () () ()⟩]).creases_in_range
        ⟨2, 5⟩ =
      [Crease.new ⟨⟨⟨3, 0⟩, .Left, true⟩, ⟨⟨3, 5⟩, .Right, true⟩⟩ () () ()] := by
  refine ⟨by decide, ?_⟩
  rw [(c2_creases_in_range_filter _ (by decide) ⟨2, 5⟩).1]
  decide

/-- On a sorted sequence, the scan loop of `query_row` returns the first
entry that starts exactly at `row` with a valid start anchor: the early exit
on a start row beyond `row` cannot skip a later match. -/
theorem queryRowLoop_eq_find (row : Nat) :
    ∀ l : CreaseSeq P T R Icon Label, seqSorted l →
      queryRowLoop row l =
        (l.find? fun e =>
          decide (e.crease.range.start.to_point.row = row) &&
            e.crease.range.start.is_valid).map CreaseItem.crease := by
  intro l
  induction l with
  | nil => intro _; rfl
  | cons x xs ih =>
    intro hs
    have hx := (List.pairwise_cons.1 hs).1
    have hxs := (List.pairwise_cons.1 hs).2
    cases hcmp : natCmp x.crease.range.start.to_point.row row with
    | lt =>
      have hlt := (natCmp_lt_iff _ _).1 hcmp
      have hne : ¬(x.crease.range.start.to_point.row = row) := by omega
      simp only [queryRowLoop, hcmp]
      rw [ih hxs, List.find?_cons_of_neg]
      simp [hne]
    | eq =>
      have heq : x.crease.range.start.to_point.row = row := (natCmp_eq_iff _ _).1 hcmp
      by_cases hv : x.crease.range.start.is_valid = true
      · simp only [queryRowLoop, hcmp, hv, if_true]
        rw [List.find?_cons_of_pos]
        · rfl
        · simp [heq, hv]
      · rw [Bool.not_eq_true] at hv
        simp only [queryRowLoop, hcmp, hv, Bool.false_eq_true, if_false]
        rw [ih hxs, List.find?_cons_of_neg]
        simp [hv]
    | gt =>
      have hgt := (natCmp_gt_iff _ _).1 hcmp
      have hall : ∀ e ∈ x :: xs,
          ¬((decide (e.crease.range.start.to_point.row = row) &&
            e.crease.range.start.is_valid) = true) := by
        intro e hee
        rcases List.mem_cons.1 hee with he | he
        · subst he
          simp only [Bool.and_eq_true, decide_eq_true_eq]
          rintro ⟨h', _⟩
          omega
        · have hmono := rangeLe_start_row_le _ _ (hx e he)
          simp only [Bool.and_eq_true, decide_eq_true_eq]
          rintro ⟨h', _⟩
          have h'' : e.crease.range.start.point.row = row := h'
          have hgt' : row < x.crease.range.start.point.row := hgt
          omega
      rw [List.find?_eq_none.2 hall]
      simp [queryRowLoop, hcmp]

/-- C3: on a sorted snapshot, `query_row` returns the first crease in
sequence order whose start anchor resolves to exactly `row` and is still
valid, and none when no such crease exists; entries starting at `row` with an
invalidated start anchor are skipped without error. -/
theorem c3_query_row_find (s : CreaseSnapshot P T R Icon Label)
    (hs : seqSorted s.creases) (row : MultiBufferRow) :
    s.query_row row =
      (s.creases.find? fun e =>
        decide (e.crease.range.start.to_point.row = row) &&
          e.crease.range.start.is_valid).map CreaseItem.crease := by
  unfold CreaseSnapshot.query_row seekAnchorLeft
  rw [queryRowLoop_eq_find row _
    (List.Pairwise.sublist (List.dropWhile_sublist _) hs)]
  rw [find?_dropWhile_of_imp]
  intro a hpa
  rw [decide_eq_true_eq] at hpa
  have hlt : a.crease.range.start.point.row < row :=
    (anchorBefore_cmp_gt_iff _ _).1 hpa
  have hne : ¬(a.crease.range.start.to_point.row = row) := by
    unfold Anchor.to_point
    omega
  simp [hne]

/-- Witness for C3: two creases start at row 2; the first one's start anchor
is invalid and is skipped, the second is returned. -/
theorem c3_witness :
    seqSorted [
      (⟨⟨0⟩, Crease.new ⟨⟨⟨2, 0⟩, .Left, false⟩, ⟨⟨2, 5⟩, .Right, true⟩⟩ () () ()⟩ :
        CreaseItem Unit Unit Unit Unit Unit),
      ⟨⟨1⟩, Crease.new ⟨⟨⟨2, 0⟩, .Left, true⟩, ⟨⟨2, 7⟩, .Right, true⟩⟩ () () ()⟩] ∧
    (CreaseSnapshot.mk [
      (⟨⟨0⟩, Crease.new ⟨⟨⟨2, 0⟩, .Left, false⟩, ⟨⟨2, 5⟩, .Right, true⟩⟩ () () ()⟩ :
        CreaseItem Unit Unit Unit Unit Unit),
      ⟨⟨1⟩, Crease.new ⟨⟨⟨2, 0⟩, .Left, true⟩, ⟨⟨2, 7⟩, .Right, true⟩⟩ () () ()⟩]).query_row 2 =
      some (Crease.new ⟨⟨⟨2, 0⟩, .Left, true⟩, ⟨⟨2, 7⟩, .Right, true⟩⟩ () () ()) := by
  refine ⟨by decide, ?_⟩
  rw [c3_query_row_find _ (by decide) 2]
  decide

/-- The identity counter advances by exactly the batch length. -/
theorem insertLoop_next_val (cs : List (Crease P T R Icon Label)) :
    ∀ (next : Nat) (idmap : CreaseId → Option AnchorRange)
      (cursor : CreaseSeq P T R Icon Label),
      (insertLoop next idmap cs cursor).next = next + cs.length := by
  induction cs with
  | nil => intro next idmap cursor; rfl
  | cons c rest ih =>
    intro next idmap cursor
    simp only [insertLoop]
    rw [ih]
    simp only [List.length_cons]
    omega

/-- The issued identities: one per input crease, all in the fresh window,
strictly increasing. -/
theorem insertLoop_ids_spec (cs : List (Crease P T R Icon Label)) :
    ∀ (next : Nat) (idmap : CreaseId → Option AnchorRange)
      (cursor : CreaseSeq P T R Icon Label),
      ((insertLoop next idmap cs cursor).ids.length = cs.length) ∧
      (∀ id ∈ (insertLoop next idmap cs cursor).ids,
        next ≤ id.val ∧ id.val < next + cs.length) ∧
      ((insertLoop next idmap cs cursor).ids.Pairwise fun a b => a.val < b.val) := by
  induction cs with
  | nil =>
    intro next idmap cursor
    exact ⟨rfl, by simp [insertLoop], by simp [insertLoop]⟩
  | cons c rest ih =>
    intro next idmap cursor
    simp only [insertLoop, List.length_cons]
    obtain ⟨ihlen, ihb, ihp⟩ :=
      ih (next + 1) (fun k => if k = ⟨next⟩ then some c.range else idmap k)
        (seqFrom c.range cursor)
    refine ⟨by simp [ihlen], ?_, ?_⟩
    · intro id hid
      rcases List.mem_cons.1 hid with h | h
      · subst h
        refine ⟨Nat.le_refl _, ?_⟩
        show next < next + (rest.length + 1)
        omega
      · have hbo := ihb id h
        exact ⟨by omega, by omega⟩
    · refine List.pairwise_cons.2 ⟨?_, ihp⟩
      intro b hbm
      have hbo := ihb b hbm
      show next < b.val
      omega

/-- Identities below the batch window keep their reverse-index entry. -/
theorem insertLoop_map_lower (cs : List (Crease P T R Icon Label)) :
    ∀ (next : Nat) (idmap : CreaseId → Option AnchorRange)
      (cursor : CreaseSeq P T R Icon Label) (k : CreaseId), k.val < next →
      (insertLoop next idmap cs cursor).idmap k = idmap k := by
  induction cs with
  | nil => intros; rfl
  | cons c rest ih =>
    intro next idmap cursor k hk
    simp only [insertLoop]
    rw [ih (next + 1) _ _ k (by omega)]
    have hne : k ≠ (⟨next⟩ : CreaseId) := by
      intro h
      subst h
      simp at hk
    simp [hne]

/-- Positional correspondence: the `i`-th issued identity is recorded with
the `i`-th input crease's range. -/
theorem insertLoop_ids_map (cs : List (Crease P T R Icon Label)) :
    ∀ (next : Nat) (idmap : CreaseId → Option AnchorRange)
      (cursor : CreaseSeq P T R Icon Label),
      (insertLoop next idmap cs cursor).ids.map (insertLoop next idmap cs cursor).idmap =
        cs.map fun c => some c.range := by
  induction cs with
  | nil => intros; rfl
  | cons c rest ih =>
    intro next idmap cursor
    simp only [insertLoop, List.map_cons]
    congr 1
    · rw [insertLoop_map_lower rest (next + 1) _ _ ⟨next⟩ (by show next < next + 1; omega)]
      simp
    · exact ih (next + 1) _ _

/-- Across any operation sequence the issued identities are strictly
increasing and confined between the start and end counter values. -/
theorem runOps_issued_facts (ops : List (RegOp P T R Icon Label)) :
    ∀ m : CreaseMap P T R Icon Label,
      ((runOps m ops).2.Pairwise fun a b => a.val < b.val) ∧
      (∀ id ∈ (runOps m ops).2,
        m.next_id.val ≤ id.val ∧ id.val < (runOps m ops).1.next_id.val) ∧
      (m.next_id.val ≤ (runOps m ops).1.next_id.val) := by
  induction ops with
  | nil => intro m; exact ⟨List.Pairwise.nil, by simp [runOps], Nat.le_refl _⟩
  | cons op rest ih =>
    intro m
    cases op with
    | ins cs =>
      obtain ⟨ihp, ihb, ihm⟩ := ih (m.insert cs).1
      have hlen : (m.insert cs).1.next_id.val = m.next_id.val + cs.length :=
        insertLoop_next_val cs m.next_id.val m.id_to_range m.snapshot.creases
      obtain ⟨hl, hb, hp⟩ :=
        insertLoop_ids_spec cs m.next_id.val m.id_to_range m.snapshot.creases
      simp only [runOps]
      refine ⟨?_, ?_, ?_⟩
      · refine List.pairwise_append.2 ⟨hp, ihp, ?_⟩
        intro a ha b hbm
        have h1 := hb a ha
        have h2 := (ihb b hbm).1
        omega
      · intro id hid
        rcases List.mem_append.1 hid with h | h
        · have h1 := hb id h
          exact ⟨by omega, by omega⟩
        · have h1 := ihb id h
          exact ⟨by omega, by omega⟩
      · omega
    | rem ids =>
      obtain ⟨ihp, ihb, ihm⟩ := ih (m.remove ids)
      simp only [runOps]
      exact ⟨ihp, fun id h => ihb id h, ihm⟩

/-- C7: across every sequence of operations on one registry, the issued
identities are pairwise distinct and strictly increasing in issuance order
(so identities are never reused, also after removals, since `remove` leaves
the counter untouched); each `insert` call returns exactly one identity per
input crease, and positionally the `i`-th returned identity is recorded with
the `i`-th input crease's range, regardless of the batch's anchor order. -/
theorem c7_identity_allocation :
    (∀ ops : List (RegOp P T R Icon Label),
      (runOps CreaseMap.new ops).2.Pairwise fun a b => a.val < b.val) ∧
    (∀ (m : CreaseMap P T R Icon Label) (cs : List (Crease P T R Icon Label)),
      (m.insert cs).2.length = cs.length ∧
      (m.insert cs).2.map (m.insert cs).1.id_to_range = cs.map fun c => some c.range) := by
  constructor
  · intro ops
    exact (runOps_issued_facts ops CreaseMap.new).1
  · intro m cs
    exact ⟨(insertLoop_ids_spec cs m.next_id.val m.id_to_range m.snapshot.creases).1,
      insertLoop_ids_map cs m.next_id.val m.id_to_range m.snapshot.creases⟩

/-- Entries of the rebuilt insert sequence come from the batch or the old
cursor. -/
theorem insertLoop_seq_mem (cs : List (Crease P T R Icon Label)) :
    ∀ (next : Nat) (idmap : CreaseId → Option AnchorRange)
      (cursor : CreaseSeq P T R Icon Label),
      ∀ e ∈ (insertLoop next idmap cs cursor).seq, e.crease ∈ cs ∨ e ∈ cursor := by
  induction cs with
  | nil => intro next idmap cursor e he; exact Or.inr he
  | cons c rest ih =>
    intro next idmap cursor e he
    simp only [insertLoop] at he
    rcases List.mem_append.1 he with h | h
    · exact Or.inr ((List.takeWhile_sublist _).subset h)
    · rcases List.mem_cons.1 h with h' | h'
      · subst h'
        exact Or.inl (List.mem_cons_self _ _)
      · rcases ih (next + 1) _ (seqFrom c.range cursor) e h' with h'' | h''
        · exact Or.inl (List.mem_cons_of_mem _ h'')
        · exact Or.inr ((List.dropWhile_sublist _).subset h'')

/-- `insert` preserves the order invariant when the batch is pre-sorted. -/
theorem insertLoop_sorted (cs : List (Crease P T R Icon Label)) :
    ∀ (next : Nat) (idmap : CreaseId → Option AnchorRange)
      (cursor : CreaseSeq P T R Icon Label),
      seqSorted cursor → batchSorted cs →
      seqSorted (insertLoop next idmap cs cursor).seq := by
  induction cs with
  | nil => intro next idmap cursor hcur _; exact hcur
  | cons c rest ih =>
    intro next idmap cursor hcur hbatch
    have hcb := (List.pairwise_cons.1 hbatch).1
    have hrest := (List.pairwise_cons.1 hbatch).2
    simp only [insertLoop]
    unfold seqSorted
    refine List.pairwise_append.2 ⟨?_, ?_, ?_⟩
    · exact List.Pairwise.sublist (List.takeWhile_sublist _) hcur
    · refine List.pairwise_cons.2 ⟨?_, ?_⟩
      · intro b hb
        rcases insertLoop_seq_mem rest (next + 1) _ (seqFrom c.range cursor) b hb
          with h | h
        · exact hcb b.crease h
        · exact mem_seqFrom_le c.range hcur b h
      · exact ih (next + 1) _ (seqFrom c.range cursor)
          (List.Pairwise.sublist (List.dropWhile_sublist _) hcur) hrest
    · intro a ha b hb
      have halt : AnchorRange.cmp a.crease.range c.range = Ordering.lt :=
        (rangeCmp_lawful.gt_iff_lt _ _).1 (mem_seqBefore_lt c.range ha)
      rcases List.mem_cons.1 hb with h | h
      · subst h
        simp [halt]
      · have hcb' : AnchorRange.cmp c.range b.crease.range ≠ Ordering.gt := by
          rcases insertLoop_seq_mem rest (next + 1) _ (seqFrom c.range cursor) b h
            with h' | h'
          · exact hcb b.crease h'
          · exact mem_seqFrom_le c.range hcur b h'
        rw [rangeCmp_lawful.lt_le_trans halt hcb']
        simp

/-- `remove` preserves the order invariant. -/
theorem removeLoop_sorted (removals : List (CreaseId × AnchorRange))
    (l : CreaseSeq P T R Icon Label) (hs : seqSorted l) :
    seqSorted (removeLoop removals l) :=
  List.Pairwise.sublist (removeLoop_sublist removals l) hs

/-- C5: starting from an empty registry, after any interleaving of `insert`
calls with pre-sorted batches and `remove` calls, the sequence of the current
snapshot is sorted in non-decreasing comparator order. -/
theorem c5_order_invariant (ops : List (RegOp P T R Icon Label))
    (hbatches : ∀ cs, RegOp.ins cs ∈ ops → batchSorted cs) :
    seqSorted ((runOps (@CreaseMap.new P T R Icon Label) ops).1.snapshot.creases) := by
  suffices h : ∀ (ops' : List (RegOp P T R Icon Label)) (m : CreaseMap P T R Icon Label),
      seqSorted m.snapshot.creases →
      (∀ cs, RegOp.ins cs ∈ ops' → batchSorted cs) →
      seqSorted ((runOps m ops').1.snapshot.creases) by
    exact h ops CreaseMap.new (by simp [CreaseMap.new, CreaseSnapshot.new, seqSorted]) hbatches
  intro ops'
  induction ops' with
  | nil => intro m hm _; exact hm
  | cons op rest ih =>
    intro m hm hb
    cases op with
    | ins cs =>
      simp only [runOps]
      refine ih (m.insert cs).1 ?_ ?_
      · exact insertLoop_sorted cs m.next_id.val m.id_to_range m.snapshot.creases hm
          (hb cs (List.mem_cons_self _ _))
      · intro cs' h'
        exact hb cs' (List.mem_cons_of_mem _ h')
    | rem ids =>
      simp only [runOps]
      refine ih (m.remove ids) ?_ ?_
      · exact removeLoop_sorted _ m.snapshot.creases hm
      · intro cs' h'
        exact hb cs' (List.mem_cons_of_mem _ h')

/-- Witness for C5: a sorted two-crease insert, a removal, then another
insert, ending in a sorted sequence. -/
theorem c5_witness :
    seqSorted ((runOps (@CreaseMap.new Unit Unit Unit Unit Unit)
      [RegOp.ins [Crease.new ⟨⟨⟨1, 0⟩, .Left, true⟩, ⟨⟨1, 5⟩, .Right, true⟩⟩ () () (),
          Crease.new ⟨⟨⟨3, 0⟩, .Left, true⟩, ⟨⟨3, 5⟩, .Right, true⟩⟩ () () ()],
        RegOp.rem [⟨0⟩],
        RegOp.ins [Crease.new ⟨⟨⟨2, 0⟩, .Left, true⟩, ⟨⟨2, 5⟩, .Right, true⟩⟩ () () ()]]).1.snapshot.creases) := by
  apply c5_order_invariant
  intro cs hcs
  simp only [List.mem_cons] at hcs
  rcases hcs with h | h | h
  · injection h with h
    subst h
    decide
  · simp at h
  · rcases h with h | h
    · injection h with h
      subst h
      decide
    · simp at h

theorem seqBefore_sublist (r : AnchorRange) (l : CreaseSeq P T R Icon Label) :
    List.Sublist (seqBefore r l) l :=
  List.takeWhile_sublist _

theorem seqFrom_sublist (r : AnchorRange) (l : CreaseSeq P T R Icon Label) :
    List.Sublist (seqFrom r l) l :=
  List.dropWhile_sublist _

/-- The scan stops exactly at the first entry carrying the target identity. -/
theorem scanForId_split (id : CreaseId) (B₁ B₂ : CreaseSeq P T R Icon Label)
    (e : CreaseItem P T R Icon Label) (he : e.id = id)
    (hB : ∀ b ∈ B₁, b.id ≠ id) :
    scanForId id (B₁ ++ e :: B₂) = (B₁, B₂) := by
  induction B₁ with
  | nil => simp [scanForId, he]
  | cons b bs ih =>
    have hb : b.id ≠ id := hB b (List.mem_cons_self _ _)
    have ihh := ih fun x hx => hB x (List.mem_cons_of_mem _ hx)
    simp only [List.cons_append, scanForId, if_neg hb, List.append_eq, ihh]

/-- In a list whose images are distinct, the middle element of a split has an
image different from everything to its left and right. -/
theorem nodup_map_split_ne {α β : Type _} {f : α → β} {L X Y : List α} {e : α}
    (h : (L.map f).Nodup) (hL : L = X ++ e :: Y) :
    (∀ b ∈ X, f b ≠ f e) ∧ (∀ b ∈ Y, f b ≠ f e) := by
  subst hL
  rw [List.map_append, List.map_cons, List.nodup_middle, List.nodup_cons] at h
  have hni := h.1
  rw [List.mem_append] at hni
  constructor
  · intro b hb hfe
    exact hni (Or.inl (by rw [← hfe]; exact List.mem_map_of_mem f hb))
  · intro b hb hfe
    exact hni (Or.inr (by rw [← hfe]; exact List.mem_map_of_mem f hb))

/-- Central lemma for `remove`: on a sorted sequence with distinct
identities, when every removal target is present with its recorded range and
the targets' ranges are strictly ascending, the rebuild loop deletes exactly
the targeted entries. -/
theorem removeLoop_eq_filter :
    ∀ (removals : List (CreaseId × AnchorRange)) (L : CreaseSeq P T R Icon Label),
      seqSorted L →
      (L.map CreaseItem.id).Nodup →
      (∀ p ∈ removals, ∃ e ∈ L, e.id = p.1 ∧ e.crease.range = p.2) →
      (removals.Pairwise fun p q => AnchorRange.cmp p.2 q.2 = Ordering.lt) →
      removeLoop removals L =
        L.filter fun e => decide (e.id ∉ removals.map Prod.fst) := by
  intro removals
  induction removals with
  | nil =>
    intro L _ _ _ _
    simp [removeLoop]
  | cons p rest ih =>
    obtain ⟨id, r⟩ := p
    intro L hL hnd hmem hsort
    have hsorthead := (List.pairwise_cons.1 hsort).1
    have hsorttail := (List.pairwise_cons.1 hsort).2
    obtain ⟨e, heL, heid, her⟩ := hmem (id, r) (List.mem_cons_self _ _)
    have hrefl : AnchorRange.cmp r r = Ordering.eq := rangeCmp_lawful.cmp_refl r
    have henot : AnchorRange.cmp r e.crease.range ≠ Ordering.gt := by
      rw [her, hrefl]; simp
    have heB : e ∈ seqFrom r L := mem_seqFrom_of_not_lt r heL henot
    obtain ⟨B₁, B₂, hB⟩ := List.append_of_mem heB
    have hLdec : L = seqBefore r L ++ B₁ ++ e :: B₂ := by
      have h0 : seqBefore r L ++ B₁ ++ e :: B₂ = L := by
        rw [List.append_assoc, ← hB, seqBefore_append_seqFrom]
      exact h0.symm
    obtain ⟨hneL, hneR⟩ := nodup_map_split_ne hnd hLdec
    rw [heid] at hneL hneR
    -- the scan recovers exactly the split around the targeted entry
    have hscan : scanForId id (seqFrom r L) = (B₁, B₂) := by
      rw [hB]
      exact scanForId_split id B₁ B₂ e heid fun b hb =>
        hneL b (List.mem_append.2 (Or.inr hb))
    -- every entry of B₁ has range comparator-equal to r
    have hBsorted : seqSorted (seqFrom r L) :=
      List.Pairwise.sublist (seqFrom_sublist r L) hL
    have hB₁eq : ∀ b ∈ B₁, AnchorRange.cmp r b.crease.range = Ordering.eq := by
      intro b hb
      have hge : AnchorRange.cmp r b.crease.range ≠ Ordering.gt :=
        mem_seqFrom_le r hL b (by rw [hB]; exact List.mem_append.2 (Or.inl hb))
      have hble : AnchorRange.cmp b.crease.range e.crease.range ≠ Ordering.gt := by
        rw [hB] at hBsorted
        have := List.pairwise_append.1 hBsorted
        exact this.2.2 b hb e (List.mem_cons_self _ _)
      have hble' : AnchorRange.cmp b.crease.range r ≠ Ordering.gt := by
        rw [her] at hble; exact hble
      exact rangeCmp_lawful.eq_of_le_le hge hble'
    -- identity injectivity on L
    have hinj := List.inj_on_of_nodup_map (f := CreaseItem.id) hnd
    -- survivors in the prefix slice never carry a target identity
    have hApred : ∀ a ∈ seqBefore r L, a.id ≠ id ∧ a.id ∉ rest.map Prod.fst := by
      intro a ha
      refine ⟨hneL a (List.mem_append.2 (Or.inl ha)), ?_⟩
      intro hcon
      rcases List.mem_map.1 hcon with ⟨q, hq, hqa⟩
      obtain ⟨e', he'L, he'id, he'r⟩ := hmem q (List.mem_cons_of_mem _ hq)
      have hae : a = e' := hinj ((seqBefore_sublist r L).subset ha) he'L
        (by rw [he'id, hqa])
      have hgt : AnchorRange.cmp r a.crease.range = Ordering.gt := mem_seqBefore_lt r ha
      have hlt : AnchorRange.cmp r q.2 = Ordering.lt := hsorthead q hq
      rw [hae, he'r] at hgt
      rw [hgt] at hlt
      cases hlt
    have hB₁pred : ∀ b ∈ B₁, b.id ≠ id ∧ b.id ∉ rest.map Prod.fst := by
      intro b hb
      refine ⟨hneL b (List.mem_append.2 (Or.inr hb)), ?_⟩
      intro hcon
      rcases List.mem_map.1 hcon with ⟨q, hq, hqb⟩
      obtain ⟨e', he'L, he'id, he'r⟩ := hmem q (List.mem_cons_of_mem _ hq)
      have hbF : b ∈ seqFrom r L := by
        rw [hB]; exact List.mem_append.2 (Or.inl hb)
      have hbe : b = e' := hinj ((seqFrom_sublist r L).subset hbF) he'L
        (by rw [he'id, hqb])
      have heq := hB₁eq b hb
      have hlt : AnchorRange.cmp r q.2 = Ordering.lt := hsorthead q hq
      rw [hbe, he'r] at heq
      rw [heq] at hlt
      cases hlt
    -- the targeted entries of the tail all live in B₂
    have hsubB₂ : List.Sublist B₂ L := by
      have h1 : List.Sublist B₂ (e :: B₂) := List.sublist_cons_self e B₂
      have h2 : List.Sublist (e :: B₂) (seqFrom r L) := by
        rw [hB]; exact List.sublist_append_right B₁ (e :: B₂)
      exact (h1.trans h2).trans (seqFrom_sublist r L)
    have hmem' : ∀ q ∈ rest, ∃ e' ∈ B₂, e'.id = q.1 ∧ e'.crease.range = q.2 := by
      intro q hq
      obtain ⟨e', he'L, he'id, he'r⟩ := hmem q (List.mem_cons_of_mem _ hq)
      have hlt : AnchorRange.cmp r q.2 = Ordering.lt := hsorthead q hq
      refine ⟨e', ?_, he'id, he'r⟩
      have he'mem : e' ∈ seqBefore r L ++ B₁ ++ e :: B₂ := by rw [← hLdec]; exact he'L
      rcases List.mem_append.1 he'mem with h' | h'
      · rcases List.mem_append.1 h' with h'' | h''
        · exfalso
          have hgt := mem_seqBefore_lt r h''
          rw [he'r] at hgt
          rw [hgt] at hlt
          cases hlt
        · exfalso
          have heq := hB₁eq e' h''
          rw [he'r] at heq
          rw [heq] at hlt
          cases hlt
      · rcases List.mem_cons.1 h' with h'' | h''
        · exfalso
          have : e'.crease.range = r := by rw [h'', her]
          rw [this] at he'r
          rw [← he'r] at hlt
          rw [hrefl] at hlt
          cases hlt
        · exact h''
    have hndB₂ : (B₂.map CreaseItem.id).Nodup :=
      List.Nodup.sublist (hsubB₂.map CreaseItem.id) hnd
    have hIH := ih B₂ (List.Pairwise.sublist hsubB₂ hL) hndB₂ hmem' hsorttail
    -- assemble
    simp only [removeLoop, hscan]
    rw [hIH]
    have hpredA : ∀ a ∈ seqBefore r L,
        (decide (a.id ∉ ((id, r) :: rest).map Prod.fst)) = true := by
      intro a ha
      obtain ⟨h1, h2⟩ := hApred a ha
      simp [h1, h2]
    have hpredB₁ : ∀ b ∈ B₁,
        (decide (b.id ∉ ((id, r) :: rest).map Prod.fst)) = true := by
      intro b hb
      obtain ⟨h1, h2⟩ := hB₁pred b hb
      simp [h1, h2]
    conv_rhs => rw [hLdec]
    rw [List.filter_append, List.filter_append,
      List.filter_eq_self.2 hpredA, List.filter_eq_self.2 hpredB₁,
      List.filter_cons]
    have hefalse : (decide (e.id ∉ ((id, r) :: rest).map Prod.fst)) = false := by
      simp [heid]
    rw [if_neg (by simp [heid])]
    have hcongr : B₂.filter (fun b => decide (b.id ∉ ((id, r) :: rest).map Prod.fst)) =
        B₂.filter fun b => decide (b.id ∉ rest.map Prod.fst) := by
      apply List.filter_congr
      intro b hb
      have hbne : b.id ≠ id := hneR b hb
      rw [decide_eq_decide]
      simp [hbne]
    rw [hcongr, List.append_assoc]

/-- What the first loop of `remove` collects: exactly the supplied
identities present in the reverse index, paired with their recorded ranges,
without duplicates. -/
theorem collect_mem_spec (ids : List CreaseId) :
    ∀ idmap : CreaseId → Option AnchorRange,
      (∀ p ∈ (collectRemovals idmap ids).1, p.1 ∈ ids ∧ idmap p.1 = some p.2) ∧
      (∀ id r, id ∈ ids → idmap id = some r → (id, r) ∈ (collectRemovals idmap ids).1) ∧
      ((collectRemovals idmap ids).1.map Prod.fst).Nodup := by
  induction ids with
  | nil =>
    intro idmap
    exact ⟨by simp [collectRemovals], by simp, by simp [collectRemovals]⟩
  | cons i rest ih =>
    intro idmap
    cases hi : idmap i with
    | some ri =>
      obtain ⟨ih1, ih2, ih3⟩ := ih fun k => if k = i then none else idmap k
      simp only [collectRemovals, hi]
      refine ⟨?_, ?_, ?_⟩
      · intro p hp
        rcases List.mem_cons.1 hp with h | h
        · subst h; exact ⟨List.mem_cons_self _ _, hi⟩
        · obtain ⟨hpm, hpmap⟩ := ih1 p h
          have hne : p.1 ≠ i := by
            intro hcon
            rw [hcon] at hpmap
            simp at hpmap
          exact ⟨List.mem_cons_of_mem _ hpm, by simpa [hne] using hpmap⟩
      · intro id r hidm hmap
        rcases List.mem_cons.1 hidm with h | h
        · subst h
          rw [hi] at hmap
          injection hmap with h'
          subst h'
          exact List.mem_cons_self _ _
        · by_cases hii : id = i
          · subst hii
            rw [hi] at hmap
            injection hmap with h'
            subst h'
            exact List.mem_cons_self _ _
          · have hmap' : (fun k => if k = i then none else idmap k) id = some r := by
              simpa [hii] using hmap
            exact List.mem_cons_of_mem _ (ih2 id r h hmap')
      · simp only [List.map_cons, List.nodup_cons]
        refine ⟨?_, ih3⟩
        intro hcon
        rcases List.mem_map.1 hcon with ⟨p, hp, hpi⟩
        have hpmap := (ih1 p hp).2
        rw [hpi] at hpmap
        simp at hpmap
    | none =>
      obtain ⟨ih1, ih2, ih3⟩ := ih idmap
      simp only [collectRemovals, hi]
      refine ⟨?_, ?_, ih3⟩
      · intro p hp
        obtain ⟨h1, h2⟩ := ih1 p hp
        exact ⟨List.mem_cons_of_mem _ h1, h2⟩
      · intro id r hm hmap
        rcases List.mem_cons.1 hm with h | h
        · subst h
          rw [hi] at hmap
          cases hmap
        · exact ih2 id r h hmap

theorem sortRemovals_perm (l : List (CreaseId × AnchorRange)) :
    (sortRemovals l).Perm l :=
  List.perm_insertionSort removalLe l

theorem sortRemovals_sorted (l : List (CreaseId × AnchorRange)) :
    (sortRemovals l).Pairwise removalLe := by
  haveI : IsTotal (CreaseId × AnchorRange) removalLe :=
    ⟨fun a b => removalCmp_lawful.le_total a b⟩
  haveI : IsTrans (CreaseId × AnchorRange) removalLe :=
    ⟨fun a b c h1 h2 => removalCmp_lawful.le_trans h1 h2⟩
  exact List.sorted_insertionSort removalLe l

/-- C1 (amended): under the registry invariants, `remove` excises exactly the
entries whose identities were supplied — removal targets being first sorted
ascending by range with ties by descending identity — provided no two
supplied identities have coincident recorded ranges; the two-crease scenario
(two coincident-range entries, one identity removed) is an instance. -/
theorem c1_remove_excises (m : CreaseMap P T R Icon Label) (hinv : RegInvariant m)
    (ids : List CreaseId)
    (hranges : ∀ a b ra rb, a ∈ ids → b ∈ ids → a ≠ b →
      m.id_to_range a = some ra → m.id_to_range b = some rb →
      AnchorRange.cmp ra rb ≠ Ordering.eq) :
    (m.remove ids).snapshot.creases =
      m.snapshot.creases.filter fun e => decide (e.id ∉ ids) := by
  obtain ⟨hsort, hnd, hent, hmape⟩ := hinv
  obtain ⟨hc1, hc2, hc3⟩ := collect_mem_spec ids m.id_to_range
  have hperm : (sortRemovals (collectRemovals m.id_to_range ids).1).Perm
      (collectRemovals m.id_to_range ids).1 := sortRemovals_perm _
  have hrc1 : ∀ p ∈ sortRemovals (collectRemovals m.id_to_range ids).1,
      p.1 ∈ ids ∧ m.id_to_range p.1 = some p.2 :=
    fun p hp => hc1 p (hperm.subset hp)
  have hrnd : ((sortRemovals (collectRemovals m.id_to_range ids).1).map Prod.fst).Nodup :=
    (List.Perm.nodup_iff (hperm.map Prod.fst)).2 hc3
  have hle := sortRemovals_sorted (collectRemovals m.id_to_range ids).1
  have hne : (sortRemovals (collectRemovals m.id_to_range ids).1).Pairwise
      fun p q => p.1 ≠ q.1 := List.pairwise_map.1 hrnd
  have hstrict : (sortRemovals (collectRemovals m.id_to_range ids).1).Pairwise
      fun p q => AnchorRange.cmp p.2 q.2 = Ordering.lt := by
    refine List.Pairwise.imp_of_mem ?_ (hle.and hne)
    intro p q hp hq hpq
    obtain ⟨h1, h2⟩ := hpq
    obtain ⟨hpi, hpm⟩ := hrc1 p hp
    obtain ⟨hqi, hqm⟩ := hrc1 q hq
    have hnee := hranges p.1 q.1 p.2 q.2 hpi hqi h2 hpm hqm
    unfold removalLe removalCmp at h1
    cases hc : AnchorRange.cmp p.2 q.2 with
    | lt => rfl
    | eq => exact absurd hc hnee
    | gt =>
      exfalso
      apply h1
      rw [hc]
      rfl
  have hmem : ∀ p ∈ sortRemovals (collectRemovals m.id_to_range ids).1,
      ∃ e ∈ m.snapshot.creases, e.id = p.1 ∧ e.crease.range = p.2 := by
    intro p hp
    exact hmape p.1 p.2 (hrc1 p hp).2
  have hmain := removeLoop_eq_filter (sortRemovals (collectRemovals m.id_to_range ids).1)
    m.snapshot.creases hsort hnd hmem hstrict
  have hgoal : (m.remove ids).snapshot.creases =
      removeLoop (sortRemovals (collectRemovals m.id_to_range ids).1)
        m.snapshot.creases := rfl
  rw [hgoal, hmain]
  apply List.filter_congr
  intro e he
  rw [decide_eq_decide]
  constructor
  · intro hnot hcon
    apply hnot
    have hin := hc2 e.id e.crease.range hcon (hent e he)
    exact List.mem_map_of_mem Prod.fst (hperm.mem_iff.2 hin)
  · intro hnot hcon
    rcases List.mem_map.1 hcon with ⟨p, hp, hpe⟩
    apply hnot
    rw [← hpe]
    exact (hrc1 p hp).1

/-- The registry invariants hold for a concrete registry with two
coincident-range entries whose identities ascend in sequence order (the state
produced by one two-crease batch insert). -/
theorem regInvariant_coincident_pair :
    RegInvariant
      ({ snapshot := ⟨[⟨⟨0⟩, Crease.new ⟨⟨⟨1, 0⟩, .Left, true⟩, ⟨⟨1, 5⟩, .Right, true⟩⟩ () () ()⟩,
            ⟨⟨1⟩, Crease.new ⟨⟨⟨1, 0⟩, .Left, true⟩, ⟨⟨1, 5⟩, .Right, true⟩⟩ () () ()⟩]⟩,
         next_id := ⟨2⟩,
         id_to_range := fun k =>
           if k.val = 0 then some ⟨⟨⟨1, 0⟩, .Left, true⟩, ⟨⟨1, 5⟩, .Right, true⟩⟩
           else if k.val = 1 then some ⟨⟨⟨1, 0⟩, .Left, true⟩, ⟨⟨1, 5⟩, .Right, true⟩⟩
           else none } : CreaseMap Unit Unit Unit Unit Unit) := by
  refine ⟨by decide, by decide, by decide, ?_⟩
  intro id range h
  obtain ⟨v⟩ := id
  by_cases h0 : v = 0
  · subst h0
    simp only [show ((⟨0⟩ : CreaseId)).val = 0 from rfl, if_pos] at h
    refine ⟨⟨⟨0⟩, Crease.new ⟨⟨⟨1, 0⟩, .Left, true⟩, ⟨⟨1, 5⟩, .Right, true⟩⟩ () () ()⟩,
      by simp, rfl, ?_⟩
    injection h
  · by_cases h1 : v = 1
    · subst h1
      simp only [show ((⟨1⟩ : CreaseId)).val = 0 ↔ False by simp, if_neg,
        show ((⟨1⟩ : CreaseId)).val = 1 from rfl, if_pos] at h
      refine ⟨⟨⟨1⟩, Crease.new ⟨⟨⟨1, 0⟩, .Left, true⟩, ⟨⟨1, 5⟩, .Right, true⟩⟩ () () ()⟩,
        by simp, rfl, ?_⟩
      injection h
    · exfalso
      simp only [show ((⟨v⟩ : CreaseId)).val = v from rfl, h0, h1, if_neg, if_false] at h
      simp [h0, h1] at h

/-- C1 counterexample: the same registry satisfies the invariants, yet
removing both identities — whose recorded ranges coincide and whose entries
sit in ascending-identity order — leaves the first entry behind instead of
excising exactly the supplied identities. -/
theorem c1_counterexample :
    RegInvariant
      ({ snapshot := ⟨[⟨⟨0⟩, Crease.new ⟨⟨⟨1, 0⟩, .Left, true⟩, ⟨⟨1, 5⟩, .Right, true⟩⟩ () () ()⟩,
            ⟨⟨1⟩, Crease.new ⟨⟨⟨1, 0⟩, .Left, true⟩, ⟨⟨1, 5⟩, .Right, true⟩⟩ () () ()⟩]⟩,
         next_id := ⟨2⟩,
         id_to_range := fun k =>
           if k.val = 0 then some ⟨⟨⟨1, 0⟩, .Left, true⟩, ⟨⟨1, 5⟩, .Right, true⟩⟩
           else if k.val = 1 then some ⟨⟨⟨1, 0⟩, .Left, true⟩, ⟨⟨1, 5⟩, .Right, true⟩⟩
           else none } : CreaseMap Unit Unit Unit Unit Unit) ∧
    (({ snapshot := ⟨[⟨⟨0⟩, Crease.new ⟨⟨⟨1, 0⟩, .Left, true⟩, ⟨⟨1, 5⟩, .Right, true⟩⟩ () () ()⟩,
            ⟨⟨1⟩, Crease.new ⟨⟨⟨1, 0⟩, .Left, true⟩, ⟨⟨1, 5⟩, .Right, true⟩⟩ () () ()⟩]⟩,
         next_id := ⟨2⟩,
         id_to_range := fun k =>
           if k.val = 0 then some ⟨⟨⟨1, 0⟩, .Left, true⟩, ⟨⟨1, 5⟩, .Right, true⟩⟩
           else if k.val = 1 then some ⟨⟨⟨1, 0⟩, .Left, true⟩, ⟨⟨1, 5⟩, .Right, true⟩⟩
           else none } : CreaseMap Unit Unit Unit Unit Unit).remove
        [⟨0⟩, ⟨1⟩]).snapshot.creases ≠
      ({ snapshot := ⟨[⟨⟨0⟩, Crease.new ⟨⟨⟨1, 0⟩, .Left, true⟩, ⟨⟨1, 5⟩, .Right, true⟩⟩ () () ()⟩,
            ⟨⟨1⟩, Crease.new ⟨⟨⟨1, 0⟩, .Left, true⟩, ⟨⟨1, 5⟩, .Right, true⟩⟩ () () ()⟩]⟩,
         next_id := ⟨2⟩,
         id_to_range := fun k =>
           if k.val = 0 then some ⟨⟨⟨1, 0⟩, .Left, true⟩, ⟨⟨1, 5⟩, .Right, true⟩⟩
           else if k.val = 1 then some ⟨⟨⟨1, 0⟩, .Left, true⟩, ⟨⟨1, 5⟩, .Right, true⟩⟩
           else none } : CreaseMap Unit Unit Unit Unit Unit).snapshot.creases.filter
        fun e => decide (e.id ∉ ([⟨0⟩, ⟨1⟩] : List CreaseId)) := by
  exact ⟨regInvariant_coincident_pair, by decide⟩

/-- Witness for C1's amended theorem: removing one of two coincident-range
creases excises exactly that entry, and the other stays discoverable through
`crease_items_with_offsets`. -/
theorem c1_witness :
    (({ snapshot := ⟨[⟨⟨0⟩, Crease.new ⟨⟨⟨1, 0⟩, .Left, true⟩, ⟨⟨1, 5⟩, .Right, true⟩⟩ () () ()⟩,
            ⟨⟨1⟩, Crease.new ⟨⟨⟨1, 0⟩, .Left, true⟩, ⟨⟨1, 5⟩, .Right, true⟩⟩ () () ()⟩]⟩,
         next_id := ⟨2⟩,
         id_to_range := fun k =>
           if k.val = 0 then some ⟨⟨⟨1, 0⟩, .Left, true⟩, ⟨⟨1, 5⟩, .Right, true⟩⟩
           else if k.val = 1 then some ⟨⟨⟨1, 0⟩, .Left, true⟩, ⟨⟨1, 5⟩, .Right, true⟩⟩
           else none } : CreaseMap Unit Unit Unit Unit Unit).remove [⟨0⟩]).snapshot.creases =
      ({ snapshot := ⟨[⟨⟨0⟩, Crease.new ⟨⟨⟨1, 0⟩, .Left, true⟩, ⟨⟨1, 5⟩, .Right, true⟩⟩ () () ()⟩,
            ⟨⟨1⟩, Crease.new ⟨⟨⟨1, 0⟩, .Left, true⟩, ⟨⟨1, 5⟩, .Right, true⟩⟩ () () ()⟩]⟩,
         next_id := ⟨2⟩,
         id_to_range := fun k =>
           if k.val = 0 then some ⟨⟨⟨1, 0⟩, .Left, true⟩, ⟨⟨1, 5⟩, .Right, true⟩⟩
           else if k.val = 1 then some ⟨⟨⟨1, 0⟩, .Left, true⟩, ⟨⟨1, 5⟩, .Right, true⟩⟩
           else none } : CreaseMap Unit Unit Unit Unit Unit).snapshot.creases.filter
        (fun e => decide (e.id ∉ ([⟨0⟩] : List CreaseId))) ∧
    (({ snapshot := ⟨[⟨⟨0⟩, Crease.new ⟨⟨⟨1, 0⟩, .Left, true⟩, ⟨⟨1, 5⟩, .Right, true⟩⟩ () () ()⟩,
            ⟨⟨1⟩, Crease.new ⟨⟨⟨1, 0⟩, .Left, true⟩, ⟨⟨1, 5⟩, .Right, true⟩⟩ () () ()⟩]⟩,
         next_id := ⟨2⟩,
         id_to_range := fun k =>
           if k.val = 0 then some ⟨⟨⟨1, 0⟩, .Left, true⟩, ⟨⟨1, 5⟩, .Right, true⟩⟩
           else if k.val = 1 then some ⟨⟨⟨1, 0⟩, .Left, true⟩, ⟨⟨1, 5⟩, .Right, true⟩⟩
           else none } : CreaseMap Unit Unit Unit Unit Unit).remove
        [⟨0⟩]).snapshot.crease_items_with_offsets = [(⟨1⟩, ⟨⟨1, 0⟩, ⟨1, 5⟩⟩)] := by
  refine ⟨c1_remove_excises _ regInvariant_coincident_pair [⟨0⟩] ?_, by decide⟩
  intro a b ra rb ha hb hab hma hmb
  simp only [List.mem_singleton] at ha hb
  subst ha
  subst hb
  exact absurd rfl hab

end CreaseModel
